import Mathlib

/-!
Shallow embedding of the storage core of the `ymd` repository
(`src/ymd/mail_utils.py`, `src/ymd/yahoomail.py`, `src/ymd/yahoomaildrive.py`,
`src/ymd/file_utils.py`) together with theorems settling the specification
claims about it.

Python strings (and the ASCII byte strings handled by the IMAP layer) are
modelled as `List Char`; byte payloads as `List Nat`; Python integers as `Nat`
(all the quantities involved are non-negative); functions that can raise are
modelled in `Except PyErr`.
-/

namespace Ymd

/-- Model of a Python `str` value (or of an ASCII `bytes` value) as the list of
its characters. -/
abbrev PyStr := List Char

/-- Python exceptions that the modelled code can raise.  The `YMD*` exception
classes of `src/ymd/exceptions.py` keep their names; `indexError`,
`typeError`, `valueError` stand for the built-in `IndexError`, `TypeError` and
`ValueError`, and `imapError` for an `imaplib` failure (e.g. selecting a
folder that does not exist). -/
inductive PyErr where
  | fetchExtractionError
  | listExtractionError
  | mailsRetrievalError
  | filesRetrievalError
  | fileDoesNotExist
  | folderDoesNotExistError
  | folderIsNotEmptyError
  | ambiguousNameError
  | chunkAlreadyExists
  | indexError
  | typeError
  | valueError
  | unicodeDecodeError
  | imapError
  deriving DecidableEq, Repr

/-! ## Chunking engine (`src/ymd/yahoomail.py`, `src/ymd/yahoomaildrive.py`) -/

/-- Translation of `YahooMailAPI.MAX_ATTACHMENT_SIZE` (`src/ymd/yahoomail.py`,
line 38): `29 * 2**20` bytes. -/
def MAX_ATTACHMENT_SIZE : Nat := 29 * 2 ^ 20

/-- Translation of `YahooMailDrive.get_chunk_count_for_size`
(`src/ymd/yahoomaildrive.py`, lines 81-86):
`return (size // YahooMailAPI.MAX_ATTACHMENT_SIZE) + 1`. -/
def get_chunk_count_for_size (size : Nat) : Nat :=
  size / MAX_ATTACHMENT_SIZE + 1

/-- Translation of `YahooMailDrive._get_chunk_count_for_file` in the buffer
case (`src/ymd/yahoomaildrive.py`, lines 88-108): the length is obtained by
seeking to the end of the buffer, so it is the length of the whole payload. -/
def get_chunk_count_for_file (buffer : List Nat) : Nat :=
  get_chunk_count_for_size buffer.length

/-- Translation of `file_utils.load_chunk` (`src/ymd/file_utils.py`,
lines 8-14).  The seekable source is modelled as the full list of its bytes;
`buffer.seek(chunk_start)` followed by `buffer.read(chunk_end - chunk_start)`
returns the bytes from offset `chunk_start`, at most `chunk_end - chunk_start`
of them, and fewer when the end of the source is reached first (Python `read`
never returns bytes past the end of the file). -/
def load_chunk (buffer : List Nat) (chunk_start chunk_end : Nat) : List Nat :=
  (buffer.drop chunk_start).take (chunk_end - chunk_start)

/-- Translation of `tuple(range(start_chunk, needed_chunks_count))` in
`YahooMailDrive._upload_file_or_buffer` (`src/ymd/yahoomaildrive.py`,
line 408). -/
def chunksIndices (start_chunk needed_chunks_count : Nat) : List Nat :=
  List.range' start_chunk (needed_chunks_count - start_chunk)

/-- Translation of the batch size used by the upload distributor
(`src/ymd/yahoomaildrive.py`, line 413):
`len(chunks_indices) // workers + len(chunks_indices) % workers`. -/
def batches_size (total workers : Nat) : Nat :=
  total / workers + total % workers

/-- Translation of the batch list built by the upload distributor
(`src/ymd/yahoomaildrive.py`, lines 415-418): batch `i` is the slice
`chunks_indices[batches_size * i : batches_size * (i + 1)]`. -/
def makeBatches (chunks_indices : List Nat) (workers : Nat) : List (List Nat) :=
  (List.range workers).map fun i_batch =>
    (chunks_indices.drop (batches_size chunks_indices.length workers * i_batch)).take
      (batches_size chunks_indices.length workers)

theorem flatten_slices (l : List Nat) (s : Nat) :
    ∀ k, ((List.range k).map fun i => (l.drop (s * i)).take s).flatten = l.take (s * k) := by
  intro k
  induction k with
  | zero => simp
  | succ n ih =>
      rw [List.range_succ, List.map_append, List.flatten_append, ih]
      simp only [List.map_cons, List.map_nil, List.flatten_cons, List.flatten_nil,
        List.append_nil, Nat.mul_succ]
      rw [List.take_add]

theorem length_le_batches_size_mul (n w : Nat) (hw : 1 ≤ w) :
    n ≤ batches_size n w * w := by
  have hmod : n / w * w + n % w = n := Nat.div_add_mod' n w
  have hle : n % w ≤ n % w * w := Nat.le_mul_of_pos_right _ hw
  calc n = n / w * w + n % w := hmod.symm
    _ ≤ n / w * w + n % w * w := by omega
    _ = (n / w + n % w) * w := by ring
    _ = batches_size n w * w := rfl

/-- C5: for every non-negative length, the chunk count is
`len // MAX_ATTACHMENT_SIZE + 1`; it is always at least one, in particular for
an empty payload. -/
theorem chunk_count_formula (len : Nat) :
    get_chunk_count_for_size len = len / MAX_ATTACHMENT_SIZE + 1 ∧
    1 ≤ get_chunk_count_for_size len ∧
    get_chunk_count_for_size 0 = 1 ∧
    (∀ buffer : List Nat, get_chunk_count_for_file buffer =
      buffer.length / MAX_ATTACHMENT_SIZE + 1) := by
  refine ⟨rfl, ?_, rfl, fun _ => rfl⟩
  exact Nat.le_add_left 1 _

/-- C3: the claim `get_chunk_count_for_size(M) == 1` fails on the code: at the
exact maximum attachment size the code computes `M // M + 1 = 2` chunks, not
one, although the docstring of `_get_chunk_count_for_file` promises a single
chunk for a payload of exactly the maximum size. -/
theorem chunk_count_at_max_size :
    get_chunk_count_for_size MAX_ATTACHMENT_SIZE = 2 ∧
    get_chunk_count_for_size MAX_ATTACHMENT_SIZE ≠ 1 := by
  constructor
  · show MAX_ATTACHMENT_SIZE / MAX_ATTACHMENT_SIZE + 1 = 2
    norm_num [MAX_ATTACHMENT_SIZE]
  · show MAX_ATTACHMENT_SIZE / MAX_ATTACHMENT_SIZE + 1 ≠ 1
    norm_num [MAX_ATTACHMENT_SIZE]

/-- C4 counterexample: with 14 remaining chunk indices and 4 workers the code
builds batches of sizes 5, 5, 4, 0 — the first batch has 5 elements although
`ceil(14 / 4) = 4`, and the last batch is empty although `14 >= 4`. -/
theorem distributor_claim_cex :
    (makeBatches (chunksIndices 0 14) 4).map List.length = [5, 5, 4, 0] ∧
    (14 + 4 - 1) / 4 = 4 ∧
    [] ∈ makeBatches (chunksIndices 0 14) 4 ∧
    4 ≤ 14 := by decide

/-- C4 amended: the distributor splits the ordered chunk-index list into
`workers` contiguous slices of size at most
`len // workers + len % workers` (batch `i` is the slice
`[size * i, size * (i + 1))`); their concatenation in order is exactly the
original index list, so every index is assigned to exactly one batch, but
trailing batches may be empty even when there are at least as many indices as
workers. -/
theorem distributor_batches (idx : List Nat) (workers : Nat) (hw : 1 ≤ workers) :
    (makeBatches idx workers).length = workers ∧
    (makeBatches idx workers).flatten = idx ∧
    ∀ b ∈ makeBatches idx workers, b.length ≤ batches_size idx.length workers := by
  refine ⟨by simp [makeBatches], ?_, ?_⟩
  · rw [makeBatches, flatten_slices]
    exact List.take_of_length_le (length_le_batches_size_mul _ _ hw)
  · intro b hb
    simp only [makeBatches, List.mem_map] at hb
    obtain ⟨i, _, rfl⟩ := hb
    exact List.length_take_le _ _

/-- C4 witness: the amended batch theorem applied to three indices and two
workers. -/
theorem distributor_batches_witness :
    1 ≤ 2 ∧ (makeBatches [0, 1, 2] 2).flatten = [0, 1, 2] :=
  ⟨by decide, (distributor_batches [0, 1, 2] 2 (by decide)).2.1⟩

/-- C8 counterexample: on a one-byte source with `start = 0`, `end = 2`, the
read stops at the end of the source and returns 1 byte, not `end - start = 2`,
although `start <= end`. -/
theorem load_chunk_claim_cex :
    (load_chunk [7] 0 2).length = 1 ∧ (1 : Nat) ≠ 2 - 0 ∧ (0 : Nat) ≤ 2 := by decide

/-- C8 amended: whenever `start <= end <= length of the source`, `load_chunk`
returns exactly `end - start` bytes, and byte `i` of the result is byte
`start + i` of the source. -/
theorem load_chunk_spec (buffer : List Nat) (s e : Nat) (h1 : s ≤ e)
    (h2 : e ≤ buffer.length) :
    (load_chunk buffer s e).length = e - s ∧
    ∀ i, i < e - s → (load_chunk buffer s e)[i]? = buffer[s + i]? := by
  constructor
  · simp only [load_chunk, List.length_take, List.length_drop]
    omega
  · intro i hi
    rw [load_chunk, List.getElem?_take, if_pos hi, List.getElem?_drop]

/-- C8 witness: the amended read-chunk theorem applied to a three-byte source
with `start = 1`, `end = 3`. -/
theorem load_chunk_spec_witness :
    1 ≤ 3 ∧ 3 ≤ [3, 4, 5].length ∧ (load_chunk [3, 4, 5] 1 3).length = 3 - 1 :=
  ⟨by decide, by decide, (load_chunk_spec [3, 4, 5] 1 3 (by decide) (by decide)).1⟩

/-! ## Python string primitives

Models of the Python `str` / `bytes` methods the source relies on
(`partition`, `split`, `removeprefix`, `removesuffix`, `replace`), all
operating on `PyStr = List Char`. -/

/-- Model of locating the first occurrence of a (non-empty) pattern in a
string: `splitFirst pat s = some (a, b)` when `s = a ++ pat ++ b` and `a` is
the shortest such prefix, `none` when `pat` does not occur in `s`.  It backs
the models of Python `partition` and `split(sep, maxsplit=1)`. -/
def splitFirst (pat : PyStr) : PyStr → Option (PyStr × PyStr)
  | [] => if pat.isPrefixOf [] then some ([], []) else none
  | c :: rest =>
    if pat.isPrefixOf (c :: rest) then some ([], (c :: rest).drop pat.length)
    else (splitFirst pat rest).map fun p => (c :: p.1, p.2)

/-- Model of Python `s.partition(sep)`: a triple `(before, sep, after)` at the
first occurrence of `sep`, or `(s, "", "")` when `sep` does not occur. -/
def pyPartition (s pat : PyStr) : PyStr × PyStr × PyStr :=
  match splitFirst pat s with
  | some (a, b) => (a, pat, b)
  | none => (s, [], [])

/-- Model of Python `s.removeprefix(pre)`. -/
def removePrefixB (s pre : PyStr) : PyStr :=
  if pre.isPrefixOf s then s.drop pre.length else s

/-- Model of Python `s.removesuffix(suf)`. -/
def removeSuffixB (s suf : PyStr) : PyStr :=
  if suf.isSuffixOf s then s.take (s.length - suf.length) else s

/-- Model of Python `s.replace(old, new)` for a one-character `old`: every
occurrence of the character is replaced, left to right, and the replacement
text is not rescanned. -/
def replaceOne (a : Char) (repl : PyStr) : PyStr → PyStr
  | [] => []
  | c :: rest => if c = a then repl ++ replaceOne a repl rest else c :: replaceOne a repl rest

/-- Model of Python `s.replace(old, new)` for a two-character `old`:
occurrences are found left to right, non-overlapping, and the replacement
text is not rescanned. -/
def replacePair (a b : Char) (repl : PyStr) : PyStr → PyStr
  | [] => []
  | [c] => [c]
  | c :: d :: rest =>
    if c = a ∧ d = b then repl ++ replacePair a b repl rest
    else c :: replacePair a b repl (d :: rest)

/-- Characters treated as whitespace by Python `bytes.split()` with no
arguments. -/
def isPyWs (c : Char) : Bool :=
  c == ' ' || c == '\t' || c == '\n' || c == '\r' || c == '\x0b' || c == '\x0c'

/-- Worker for `pySplitWs`: `cur` holds the characters of the current field in
reverse order. -/
def pySplitWsGo (cur : PyStr) : PyStr → List PyStr
  | [] => if cur = [] then [] else [cur.reverse]
  | c :: rest =>
    if isPyWs c then
      if cur = [] then pySplitWsGo [] rest else cur.reverse :: pySplitWsGo [] rest
    else pySplitWsGo (c :: cur) rest

/-- Model of Python `bytes.split()` with no arguments: split on runs of
whitespace, discarding empty fields. -/
def pySplitWs (s : PyStr) : List PyStr := pySplitWsGo [] s

theorem exceptBind_error {α β : Type} (e : PyErr) (f : α → Except PyErr β) :
    (Except.error e >>= f) = Except.error e := rfl

theorem exceptBind_ok {α β : Type} (a : α) (f : α → Except PyErr β) :
    (Except.ok a >>= f) = f a := rfl

theorem splitFirst_sound (pat : PyStr) :
    ∀ s a b, splitFirst pat s = some (a, b) → s = a ++ pat ++ b := by
  intro s
  induction s with
  | nil =>
      intro a b h
      rw [splitFirst] at h
      by_cases hp : pat.isPrefixOf ([] : PyStr)
      · rw [if_pos hp] at h
        have hpe : pat = [] := by
          have hle := (List.isPrefixOf_iff_prefix.mp hp).length_le
          cases pat with
          | nil => rfl
          | cons x xs => simp at hle
        simp only [Option.some.injEq, Prod.mk.injEq] at h
        rw [← h.1, ← h.2, hpe]
        rfl
      · rw [if_neg hp] at h
        exact absurd h (by simp)
  | cons c rest ih =>
      intro a b h
      rw [splitFirst] at h
      by_cases hp : pat.isPrefixOf (c :: rest)
      · rw [if_pos hp] at h
        simp only [Option.some.injEq, Prod.mk.injEq] at h
        obtain ⟨ha, hb⟩ := h
        obtain ⟨t, ht⟩ := List.isPrefixOf_iff_prefix.mp hp
        have hd : (c :: rest).drop pat.length = t := by rw [← ht, List.drop_left]
        rw [← ha, ← hb, hd, ← ht]
        simp
      · rw [if_neg hp] at h
        cases hrec : splitFirst pat rest with
        | none => rw [hrec] at h; exact absurd h (by simp)
        | some p =>
            obtain ⟨p1, p2⟩ := p
            rw [hrec] at h
            simp only [Option.map_some', Option.some.injEq, Prod.mk.injEq] at h
            obtain ⟨ha, hb⟩ := h
            have hr := ih p1 p2 hrec
            rw [← ha, ← hb]
            simp [hr]

theorem splitFirst_minimal (pat : PyStr) :
    ∀ s a b, splitFirst pat s = some (a, b) →
      ∀ a' b', s = a' ++ pat ++ b' → a.length ≤ a'.length := by
  intro s
  induction s with
  | nil =>
      intro a b h a' b' _
      rw [splitFirst] at h
      by_cases hp : pat.isPrefixOf ([] : PyStr)
      · rw [if_pos hp] at h
        simp only [Option.some.injEq, Prod.mk.injEq] at h
        rw [← h.1]
        simp
      · rw [if_neg hp] at h
        exact absurd h (by simp)
  | cons c rest ih =>
      intro a b h a' b' heq
      rw [splitFirst] at h
      by_cases hp : pat.isPrefixOf (c :: rest)
      · rw [if_pos hp] at h
        simp only [Option.some.injEq, Prod.mk.injEq] at h
        rw [← h.1]
        simp
      · rw [if_neg hp] at h
        cases hrec : splitFirst pat rest with
        | none => rw [hrec] at h; exact absurd h (by simp)
        | some p =>
            obtain ⟨p1, p2⟩ := p
            rw [hrec] at h
            simp only [Option.map_some', Option.some.injEq, Prod.mk.injEq] at h
            obtain ⟨ha, hb⟩ := h
            cases a' with
            | nil =>
                exfalso
                apply hp
                rw [List.isPrefixOf_iff_prefix]
                exact ⟨b', by simpa using heq.symm⟩
            | cons x a'' =>
                simp only [List.cons_append, List.cons.injEq] at heq
                have := ih p1 p2 hrec a'' b' heq.2
                rw [← ha]
                simpa using this

theorem splitFirst_none_iff (pat : PyStr) :
    ∀ s, splitFirst pat s = none ↔ ∀ a b, s ≠ a ++ pat ++ b := by
  intro s
  induction s with
  | nil =>
      rw [splitFirst]
      by_cases hp : pat.isPrefixOf ([] : PyStr)
      · rw [if_pos hp]
        have hpe : pat = [] := by
          have hle := (List.isPrefixOf_iff_prefix.mp hp).length_le
          cases pat with
          | nil => rfl
          | cons x xs => simp at hle
        constructor
        · intro h; exact absurd h (by simp)
        · intro h; exact absurd (by simp [hpe]) (h [] [])
      · rw [if_neg hp]
        constructor
        · intro _ a b heq
          cases a with
          | nil =>
              exact hp (List.isPrefixOf_iff_prefix.mpr ⟨b, by simpa using heq.symm⟩)
          | cons x xs => simp at heq
        · intro _; rfl
  | cons c rest ih =>
      rw [splitFirst]
      by_cases hp : pat.isPrefixOf (c :: rest)
      · rw [if_pos hp]
        constructor
        · intro h; exact absurd h (by simp)
        · intro h
          obtain ⟨t, ht⟩ := List.isPrefixOf_iff_prefix.mp hp
          exact absurd (by rw [← ht]; rfl) (h [] t)
      · rw [if_neg hp]
        constructor
        · intro h a b heq
          cases a with
          | nil =>
              exact hp (List.isPrefixOf_iff_prefix.mpr ⟨b, by simpa using heq.symm⟩)
          | cons x a'' =>
              simp only [List.cons_append, List.cons.injEq] at heq
              have hnone : splitFirst pat rest = none := by
                cases hrec : splitFirst pat rest with
                | none => rfl
                | some p => rw [hrec] at h; simp at h
              exact (ih.mp hnone) a'' b heq.2
        · intro h
          have hnone : splitFirst pat rest = none :=
            ih.mpr fun a b heq => h (c :: a) b (by simp [heq])
          rw [hnone]
          rfl

theorem splitFirst_single_char (c : Char) (xs ys : PyStr) (h : c ∉ xs) :
    splitFirst [c] (xs ++ c :: ys) = some (xs, ys) := by
  induction xs with
  | nil =>
      have hp : ([c] : PyStr).isPrefixOf (c :: ys) := by
        rw [List.isPrefixOf_iff_prefix]
        exact ⟨ys, rfl⟩
      rw [List.nil_append, splitFirst, if_pos hp]
      rfl
  | cons x xs' ih =>
      have hx : ¬ ([c] : PyStr).isPrefixOf (x :: (xs' ++ c :: ys)) := by
        rw [List.isPrefixOf_iff_prefix]
        rintro ⟨t, ht⟩
        simp only [List.singleton_append, List.cons.injEq] at ht
        exact h (by simp [ht.1])
      have h' : c ∉ xs' := fun hc => h (List.mem_cons_of_mem _ hc)
      rw [List.cons_append, splitFirst, if_neg hx, ih h']
      rfl

theorem splitFirst_no_occ (c : Char) (s : PyStr) (h : c ∉ s) :
    splitFirst [c] s = none := by
  rw [splitFirst_none_iff]
  intro a b heq
  exact h (by simp [heq])

/-! ## Folder LIST parsing (`mail_utils.extract_list_result`, lines 330-350) -/

/-- Model of the Python expression `partitioned_folder[2] == ""` at
`src/ymd/mail_utils.py`, line 344: `partitioned_folder[2]` is a `bytes` value
while `""` is a `str` value, and in Python comparing a `bytes` value with a
`str` value using `==` always evaluates to `False`, whatever their contents.
The arguments are kept so that the call site mirrors the source line. -/
def pyBytesEqStr (_bytesVal : PyStr) (_strVal : String) : Bool := false

/-- Literal delimiter of a LIST reply line: a space, a double quote, a slash,
a double quote and a space. -/
def listSep : PyStr := [' ', '"', '/', '"', ' ']

/-- Translation of `mail_utils.extract_list_result` (`src/ymd/mail_utils.py`,
lines 330-350): for each reply line, partition on the literal delimiter,
compare the third component with the empty string (the source compares a
`bytes` with a `str`, see `pyBytesEqStr`), raise
`YMDListResultExtractionError` when that comparison succeeds, and otherwise
strip one leading and one trailing double quote from the third component. -/
def extract_list_result : List PyStr → Except PyErr (List PyStr)
  | [] => .ok []
  | folder_data_bytes :: rest =>
    let partitioned_folder := pyPartition folder_data_bytes listSep
    if pyBytesEqStr partitioned_folder.2.2 "" then
      .error .listExtractionError
    else
      (extract_list_result rest) >>= fun others =>
        .ok (removeSuffixB (removePrefixB partitioned_folder.2.2 ['"']) ['"'] :: others)

/-- C2: the error branch of `extract_list_result` is dead code.  On a line
lacking the `"/"` delimiter the function does not raise
`YMDListResultExtractionError`: `partition` returns `(line, b"", b"")`, the
guard compares the `bytes` value `b""` with the `str` value `""`, which is
always `False` in Python, so the empty third component is quote-stripped into
an empty folder name which is returned.  On a well-formed line the path is
extracted with the surrounding quotes stripped, as claimed. -/
theorem extract_list_result_bug :
    extract_list_result ["(\\HasNoChildren) INBOX".toList] = .ok [[]] ∧
    extract_list_result ["(\\Noselect) \"/\" \"INBOX/ymd\"".toList] =
      .ok ["INBOX/ymd".toList] ∧
    ∀ line, extract_list_result [line] ≠ .error .listExtractionError := by
  refine ⟨rfl, rfl, ?_⟩
  intro line
  have hval : extract_list_result [line] =
      .ok [removeSuffixB (removePrefixB (pyPartition line listSep).2.2 ['"']) ['"']] := rfl
  rw [hval]
  simp

/-! ## FETCH parsing (`mail_utils.FetchResult.from_raw`, lines 92-117) -/

/-- One element of the data list of a raw `FETCH` reply as handed over by
`imaplib`: `None` (no match), a `(metadata, data)` tuple, or a bare `bytes`
object (the `b")"` sentinel closing each message). -/
inductive FetchElem where
  | none
  | pair (metadata mail_data : PyStr)
  | bytes (b : PyStr)
  deriving DecidableEq, Repr

/-- Model of Python `raw_data[::2]`: the elements at even indices. -/
def everyOther : List FetchElem → List FetchElem
  | [] => []
  | [a] => [a]
  | a :: _ :: rest => a :: everyOther rest

/-- Translation of `metadata.split()[2].decode()` (`src/ymd/mail_utils.py`,
line 114): the third whitespace-separated token of the metadata line, `none`
modelling the `IndexError` raised when fewer than three tokens exist. -/
def fetchUid (metadata : PyStr) : Option PyStr :=
  (pySplitWs metadata)[2]?

/-- Translation of the extraction loop of `FetchResult.from_raw`
(`src/ymd/mail_utils.py`, lines 111-115) over the even-indexed elements:
unpacking a `None` element raises `TypeError`, unpacking a bare `bytes`
element raises `ValueError`, and a metadata line with fewer than three tokens
raises `IndexError`. -/
def collectPairs : List FetchElem → Except PyErr (List (PyStr × PyStr))
  | [] => .ok []
  | FetchElem.none :: _ => .error .typeError
  | FetchElem.bytes _ :: _ => .error .valueError
  | FetchElem.pair m d :: rest =>
    match fetchUid m with
    | some uid => (collectPairs rest) >>= fun tail => .ok ((uid, d) :: tail)
    | Option.none => .error .indexError

/-- Translation of `FetchResult.from_raw` (`src/ymd/mail_utils.py`,
lines 92-117): raise `YMDFetchResultExtractionError` when the first data
element is `None` or when the element count is odd (indexing an empty list
raises `IndexError` instead); otherwise walk the even-indexed elements
collecting the third metadata token and the data blob, and return both lists
reversed. -/
def FetchResult_from_raw (raw_data : List FetchElem) :
    Except PyErr (List PyStr × List PyStr) :=
  match raw_data with
  | [] => .error .indexError
  | first :: _ =>
    if first = FetchElem.none then .error .fetchExtractionError
    else if raw_data.length % 2 ≠ 0 then .error .fetchExtractionError
    else
      (collectPairs (everyOther raw_data)) >>= fun pairs =>
        .ok ((pairs.map Prod.fst).reverse, (pairs.map Prod.snd).reverse)

/-- Successful extraction of one even-indexed element: a `(metadata, data)`
tuple whose metadata line has at least three whitespace-separated tokens. -/
def extractPair : FetchElem → Option (PyStr × PyStr)
  | FetchElem.pair m d => (fetchUid m).map fun u => (u, d)
  | _ => Option.none

/-- Successful extraction of every element of a list of even-indexed
elements. -/
def extractAll : List FetchElem → Option (List (PyStr × PyStr))
  | [] => some []
  | e :: rest => (extractPair e).bind fun p => (extractAll rest).map fun tail => p :: tail

theorem collectPairs_ne_fee (l : List FetchElem) :
    collectPairs l ≠ .error .fetchExtractionError := by
  induction l with
  | nil => simp [collectPairs]
  | cons a rest ih =>
      cases a with
      | none => simp [collectPairs]
      | bytes b => simp [collectPairs]
      | pair m d =>
          cases hu : fetchUid m with
          | none => simp [collectPairs, hu]
          | some uid =>
              simp only [collectPairs, hu]
              cases hrec : collectPairs rest with
              | error e =>
                  rw [exceptBind_error]
                  intro hcon
                  have he : e = PyErr.fetchExtractionError := by injection hcon
                  exact ih (he ▸ hrec)
              | ok tail =>
                  rw [exceptBind_ok]
                  intro hcon
                  exact Except.noConfusion hcon

theorem collectPairs_of_extractAll (l : List FetchElem)
    (pairs : List (PyStr × PyStr)) (h : extractAll l = some pairs) :
    collectPairs l = .ok pairs := by
  induction l generalizing pairs with
  | nil =>
      simp only [extractAll, Option.some.injEq] at h
      rw [← h]
      rfl
  | cons a rest ih =>
      rw [extractAll] at h
      cases ha : extractPair a with
      | none => rw [ha] at h; simp at h
      | some p =>
          rw [ha] at h
          cases hrest : extractAll rest with
          | none => rw [hrest] at h; simp at h
          | some tail =>
              rw [hrest] at h
              simp only [Option.some_bind, Option.map_some', Option.some.injEq] at h
              cases a with
              | none => simp [extractPair] at ha
              | bytes b => simp [extractPair] at ha
              | pair m d =>
                  simp only [extractPair] at ha
                  cases hu : fetchUid m with
                  | none => rw [hu] at ha; simp at ha
                  | some uid =>
                      rw [hu] at ha
                      simp only [Option.map_some', Option.some.injEq] at ha
                      simp only [collectPairs, hu, ih tail hrest, exceptBind_ok]
                      rw [← h, ← ha]

/-- C6: `FetchResult.from_raw` fails with `YMDFetchResultExtractionError`
exactly when the first data element is `None` or the element count is odd (on
the empty data list it raises `IndexError`, not this error); and on a
well-formed non-empty reply — every even-indexed element a `(metadata, data)`
tuple with at least three metadata tokens — it pairs the even-indexed
elements, extracts the third metadata token as uid, and returns uids and data
both reversed from the raw order. -/
theorem fetch_from_raw_spec :
    (∀ raw : List FetchElem,
      (FetchResult_from_raw raw = .error .fetchExtractionError ↔
        raw.head? = some FetchElem.none ∨ raw.length % 2 = 1)) ∧
    (∀ raw : List FetchElem, ∀ pairs : List (PyStr × PyStr),
      raw ≠ [] → raw.head? ≠ some FetchElem.none → raw.length % 2 = 0 →
      extractAll (everyOther raw) = some pairs →
      FetchResult_from_raw raw =
        .ok ((pairs.map Prod.fst).reverse, (pairs.map Prod.snd).reverse)) := by
  constructor
  · intro raw
    cases raw with
    | nil =>
        constructor
        · intro h; exact absurd h (by simp [FetchResult_from_raw])
        · intro h; simp at h
    | cons first rest =>
        by_cases h1 : first = FetchElem.none
        · subst h1
          simp [FetchResult_from_raw]
        · by_cases h2 : (first :: rest).length % 2 = 0
          · simp only [FetchResult_from_raw, if_neg h1]
            rw [if_neg (by omega)]
            constructor
            · intro h
              cases hc : collectPairs (everyOther (first :: rest)) with
              | error e =>
                  rw [hc, exceptBind_error] at h
                  have he : e = PyErr.fetchExtractionError := by injection h
                  exact absurd (he ▸ hc) (collectPairs_ne_fee _)
              | ok pairs =>
                  rw [hc, exceptBind_ok] at h
                  exact Except.noConfusion h
            · intro h
              rcases h with h | h
              · exact absurd (Option.some.inj (by simpa using h)) h1
              · omega
          · simp only [FetchResult_from_raw, if_neg h1]
            rw [if_pos (by omega)]
            constructor
            · intro _
              right
              omega
            · intro _
              rfl
  · intro raw pairs hne h1 h2 h3
    cases raw with
    | nil => exact absurd rfl hne
    | cons first rest =>
        have hf : first ≠ FetchElem.none := fun hcon => h1 (by simp [hcon])
        simp only [FetchResult_from_raw, if_neg hf]
        rw [if_neg (by omega)]
        rw [collectPairs_of_extractAll _ _ h3, exceptBind_ok]

/-- C6 witness: a four-element reply (two `(metadata, data)` tuples, each
followed by a `b")"` sentinel) in descending uid order is parsed into
ascending uid order. -/
theorem fetch_from_raw_witness :
    FetchResult_from_raw
      [FetchElem.pair "12 (UID 457 BODY[]".toList "data457".toList,
       FetchElem.bytes ")".toList,
       FetchElem.pair "11 (UID 456 BODY[]".toList "data456".toList,
       FetchElem.bytes ")".toList] =
      .ok (["456".toList, "457".toList], ["data456".toList, "data457".toList]) := by
  have := fetch_from_raw_spec.2
    [FetchElem.pair "12 (UID 457 BODY[]".toList "data457".toList,
     FetchElem.bytes ")".toList,
     FetchElem.pair "11 (UID 456 BODY[]".toList "data456".toList,
     FetchElem.bytes ")".toList]
    [("457".toList, "data457".toList), ("456".toList, "data456".toList)]
    (by decide) (by decide) (by decide) (by decide)
  simpa using this

/-! ## Virtual filesystem model (`src/ymd/yahoomaildrive.py`, `src/ymd/yahoomail.py`)

The mail server is modelled as a list of folders, each folder a name and the
list of its mails in ascending-uid order (`get_all_mails` returns mails in
that order: the SEARCH uids are ascending and `FetchResult.from_raw` restores
ascending order, see C6).  `STORE +FLAGS \Deleted` preceded by `COPY` to
Trash is modelled as removal, by uid, of the addressed mails from the folder
selected by `delete_mails`. -/

/-- Model of a mail as the orchestrator sees it: its uid and its subject
(`mail_utils.Mail`; the date field plays no role in the claims). -/
structure Mail where
  mail_id : PyStr
  subject : PyStr
  deriving DecidableEq, Repr

/-- One backend folder: its decoded path name and its mails. -/
structure FolderRec where
  name : PyStr
  mails : List Mail
  deriving DecidableEq, Repr

/-- The state of the mail account: the list of its folders. -/
abbrev MailServer := List FolderRec

/-- The folder paths known to the backend (`get_all_folders`, decoded). -/
def foldersOf (st : MailServer) : List PyStr := st.map FolderRec.name

/-- The folder record with the given name, if any. -/
def findFolder (st : MailServer) (folder_name : PyStr) : Option FolderRec :=
  st.find? fun fr => decide (fr.name = folder_name)

/-- The mails of the given folder (empty when the folder is absent). -/
def mailsOf (st : MailServer) (folder_name : PyStr) : List Mail :=
  ((findFolder st folder_name).map FolderRec.mails).getD []

/-- Translation of `YahooMailAPI.get_all_mails`: the mails of the folder in
ascending-uid order; selecting a missing folder fails at the IMAP layer. -/
def get_all_mails (st : MailServer) (folder_name : PyStr) : Except PyErr (List Mail) :=
  match findFolder st folder_name with
  | some fr => .ok fr.mails
  | Option.none => .error .imapError

/-- The literal `".part"` scanned for in mail subjects. -/
def dotPart : PyStr := ".part".toList

/-- Translation of `YahooMailDrive._get_file_name_from_subject`
(`src/ymd/yahoomaildrive.py`, lines 118-130): partition the subject on
`".part"`; if the separator is absent return `None`, otherwise return the
part before the first occurrence. -/
def _get_file_name_from_subject (subject : PyStr) : Option PyStr :=
  match splitFirst dotPart subject with
  | some (pre, _) => some pre
  | Option.none => Option.none

/-- Appending a mail to the entry of `key` in an insertion-ordered
association list, creating the entry at the end when absent (Python `dict`
semantics of `_get_files_data_in_folder`). -/
def addToGroup (groups : List (PyStr × List Mail)) (key : PyStr) (m : Mail) :
    List (PyStr × List Mail) :=
  match groups with
  | [] => [(key, [m])]
  | (k, ms) :: rest =>
    if k = key then (k, ms ++ [m]) :: rest else (k, ms) :: addToGroup rest key m

/-- One step of the grouping loop of `_get_files_data_in_folder`
(`src/ymd/yahoomaildrive.py`, lines 157-175): mails whose subject yields no
file name are skipped. -/
def groupStep (acc : List (PyStr × List Mail)) (mail : Mail) :
    List (PyStr × List Mail) :=
  match _get_file_name_from_subject mail.subject with
  | Option.none => acc
  | some file_name => addToGroup acc file_name mail

/-- Translation of the grouping performed by `_get_files_data_in_folder` (with
no key prefix): fold the mails in listing order into an insertion-ordered
association list from file names to their chunk mails. -/
def groupFiles (mails : List Mail) : List (PyStr × List Mail) :=
  mails.foldl groupStep []

/-- Lookup in the association list produced by `groupFiles`. -/
def lookupGroup (groups : List (PyStr × List Mail)) (key : PyStr) :
    Option (List Mail) :=
  (groups.find? fun p => decide (p.1 = key)).map Prod.snd

/-- The keys of the association list produced by `groupFiles`. -/
def groupKeys (groups : List (PyStr × List Mail)) : List PyStr :=
  groups.map Prod.fst

/-- Translation of `YahooMailDrive._get_files_data_in_folder`
(`src/ymd/yahoomaildrive.py`, lines 136-177): fetch all mails of the folder
and group them by the file name extracted from each subject;
`YMDMailsRetrievalError` is rewrapped as `YMDFilesRetrievalError`, other
failures propagate. -/
def _get_files_data_in_folder (st : MailServer) (folder_name : PyStr) :
    Except PyErr (List (PyStr × List Mail)) :=
  match get_all_mails st folder_name with
  | .ok mails => .ok (groupFiles mails)
  | .error e => .error (if e = .mailsRetrievalError then .filesRetrievalError else e)

/-- Translation of `YahooMailDrive.get_files_data` with
`max_recursion_depth=0` (`src/ymd/yahoomaildrive.py`, lines 205-222): files of
the target folder only, no recursion. -/
def get_files_data_depth0 (st : MailServer) (target : PyStr) :
    Except PyErr (List (PyStr × List Mail)) :=
  _get_files_data_in_folder st target

/-- Translation of `depth_key` inside `YahooMailDrive._get_subfolders`
(`src/ymd/yahoomaildrive.py`, line 187): the number of slashes of a path. -/
def depth_key (folder_name : PyStr) : Nat := folder_name.count '/'

/-- Model of `list.sort(key=depth_key, reverse=reverse)`: Python `sort` is a
stable sort; a stable sort by a total preorder is unique, so the insertion
sort (stable by construction) computes exactly Python's result, for both
directions. -/
def sortByDepth (l : List PyStr) (reverse : Bool) : List PyStr :=
  if reverse then l.insertionSort fun a b => depth_key b ≤ depth_key a
  else l.insertionSort fun a b => depth_key a ≤ depth_key b

/-- Translation of `YahooMailDrive._get_subfolders`
(`src/ymd/yahoomaildrive.py`, lines 179-203): fail when the folder is not
known; otherwise keep the folders that start with the given name and differ
from it, sorted by slash count (descending when `reverse`). -/
def _get_subfolders (st : MailServer) (folder_name : PyStr) (reverse : Bool) :
    Except PyErr (List PyStr) :=
  let folders := foldersOf st
  if folder_name ∈ folders then
    .ok (sortByDepth
      (folders.filter fun f => folder_name.isPrefixOf f && decide (f ≠ folder_name))
      reverse)
  else .error .folderDoesNotExistError

/-- Translation of `YahooMailAPI.delete_mails` (`src/ymd/mail_utils.py`,
lines 291-313): select `folder_name` and trash-move/STORE-delete the mails
whose uid is among the given mails' uids — the uids address mails of the
selected folder, whatever folder the `Mail` values were originally fetched
from. -/
def delete_mails (st : MailServer) (mails : List Mail) (folder_name : PyStr) :
    Except PyErr MailServer :=
  if folder_name ∈ foldersOf st then
    .ok (st.map fun fr =>
      if fr.name = folder_name then
        { fr with mails := fr.mails.filter fun m =>
            decide (m.mail_id ∉ mails.map Mail.mail_id) }
      else fr)
  else .error .imapError

/-- Translation of `YahooMailAPI.delete_folder` (`src/ymd/yahoomail.py`,
lines 107-119): fail with `YMDFolderDoesNotExistError` when the folder is
unknown, otherwise delete the mailbox (and with it its messages). -/
def delete_folder (st : MailServer) (folder_name : PyStr) :
    Except PyErr MailServer :=
  if folder_name ∈ foldersOf st then
    .ok (st.filter fun fr => decide (fr.name ≠ folder_name))
  else .error .folderDoesNotExistError

/-- The subfolder deletion loop of `remove_file_or_folder_recursively`
(`src/ymd/yahoomaildrive.py`, lines 572-573). -/
def deleteFoldersLoop (st : MailServer) : List PyStr → Except PyErr MailServer
  | [] => .ok st
  | f :: rest => (delete_folder st f) >>= fun st' => deleteFoldersLoop st' rest

/-- Translation of `YahooMailDrive.remove_file_or_folder_recursively`
(`src/ymd/yahoomaildrive.py`, lines 513-575).  Besides the final state, the
returned list records the folder names passed to `delete_folder`, in
chronological order. -/
def remove_file_or_folder_recursively (st : MailServer)
    (target file_or_folder_name : PyStr) (recurse : Bool) :
    Except PyErr (MailServer × List PyStr) :=
  (get_files_data_depth0 st target) >>= fun files_data =>
  if file_or_folder_name ∈ groupKeys files_data then
    if file_or_folder_name ∈ foldersOf st then .error .ambiguousNameError
    else
      (delete_mails st ((lookupGroup files_data file_or_folder_name).getD []) target)
        >>= fun st' => .ok (st', [])
  else if file_or_folder_name ∉ foldersOf st then
    .error (if recurse then .folderDoesNotExistError else .fileDoesNotExist)
  else
    (_get_files_data_in_folder st file_or_folder_name) >>= fun files_data2 =>
    if files_data2 ≠ [] ∧ recurse = false then .error .folderIsNotEmptyError
    else
      (delete_mails st ((files_data2.map Prod.snd).flatten) target) >>= fun st1 =>
      (_get_subfolders st1 file_or_folder_name true) >>= fun subs =>
      (deleteFoldersLoop st1 subs) >>= fun st2 =>
      (delete_folder st2 file_or_folder_name) >>= fun st3 =>
      .ok (st3, subs ++ [file_or_folder_name])

/-- The chunk mails directly inside a folder, in listing order. -/
def chunkMailsOf (st : MailServer) (folder : PyStr) : List Mail :=
  ((groupFiles (mailsOf st folder)).map Prod.snd).flatten

/-- The state after removing folder `name`: the uids of `name`'s chunk mails
are removed from the target folder (the quirk of the code: the STORE is
issued against the target folder), and every folder whose path starts with
`name` is gone. -/
def afterRemoveFolder (st : MailServer) (target name : PyStr) : MailServer :=
  (st.map fun fr =>
    if fr.name = target then
      { fr with mails := fr.mails.filter fun m =>
          decide (m.mail_id ∉ (chunkMailsOf st name).map Mail.mail_id) }
    else fr).filter fun fr => decide (¬ name <+: fr.name)

/-- The subfolders of `name`, deepest first, as the removal path sorts them. -/
def subfoldersSorted (st : MailServer) (name : PyStr) : List PyStr :=
  sortByDepth
    ((foldersOf st).filter fun f => name.isPrefixOf f && decide (f ≠ name)) true

/-- Concrete account for the C7 counterexample: the target folder `ymd`, a
folder `dir` with no direct mails, and a subfolder `dir/sub` holding one
chunk mail. -/
def stCex : MailServer :=
  [⟨"ymd".toList, []⟩, ⟨"dir".toList, []⟩,
   ⟨"dir/sub".toList, [⟨"1".toList, "x.part1".toList⟩]⟩]

/-- C7 counterexample: with `recurse = false`, removing the folder `dir`,
which contains the subfolder `dir/sub` (itself holding a virtual file), does
not fail with `YMDFolderIsNotEmptyError` — the emptiness check only looks at
the folder's direct mails — and instead deletes `dir/sub` and then `dir`,
folder contents included. -/
theorem remove_claim_cex :
    remove_file_or_folder_recursively stCex ("ymd".toList) ("dir".toList) false =
      .ok ([⟨"ymd".toList, []⟩], ["dir/sub".toList, "dir".toList]) ∧
    ∀ e, remove_file_or_folder_recursively stCex ("ymd".toList) ("dir".toList) false ≠
      .error e := by
  have h : remove_file_or_folder_recursively stCex ("ymd".toList) ("dir".toList) false =
      .ok ([⟨"ymd".toList, []⟩], ["dir/sub".toList, "dir".toList]) := rfl
  refine ⟨h, ?_⟩
  intro e hcon
  rw [h] at hcon
  exact Except.noConfusion hcon

theorem find_folder (st : MailServer) (f : PyStr) (h : f ∈ foldersOf st) :
    ∃ fr, findFolder st f = some fr ∧ fr.name = f := by
  induction st with
  | nil => simp [foldersOf] at h
  | cons a rest ih =>
      by_cases ha : a.name = f
      · exact ⟨a, by simp [findFolder, List.find?, ha], ha⟩
      · have h' : f ∈ foldersOf rest := by
          simp only [foldersOf, List.map_cons, List.mem_cons] at h
          exact h.resolve_left fun hc => ha hc.symm
        obtain ⟨fr, hfind, hname⟩ := ih h'
        exact ⟨fr, by simpa [findFolder, List.find?, ha] using hfind, hname⟩

theorem get_all_mails_ok (st : MailServer) (f : PyStr) (h : f ∈ foldersOf st) :
    get_all_mails st f = .ok (mailsOf st f) := by
  obtain ⟨fr, hfind, _⟩ := find_folder st f h
  simp [get_all_mails, mailsOf, hfind]

theorem files_data_in_folder_ok (st : MailServer) (f : PyStr)
    (h : f ∈ foldersOf st) :
    _get_files_data_in_folder st f = .ok (groupFiles (mailsOf st f)) := by
  rw [_get_files_data_in_folder, get_all_mails_ok st f h]

theorem foldersOf_map_keep (st : MailServer) (g : FolderRec → FolderRec)
    (hg : ∀ fr, (g fr).name = fr.name) :
    foldersOf (st.map g) = foldersOf st := by
  simp only [foldersOf, List.map_map]
  exact List.map_congr_left fun fr _ => hg fr

theorem foldersOf_filter_name (st : MailServer) (p : PyStr → Bool) :
    foldersOf (st.filter fun fr => p fr.name) = (foldersOf st).filter p := by
  induction st with
  | nil => rfl
  | cons a rest ih =>
      by_cases h : p a.name <;>
        simp [foldersOf, List.filter_cons, h, ih] <;>
        simpa [foldersOf] using ih

theorem mem_foldersOf (st : MailServer) (x : PyStr) :
    x ∈ foldersOf st ↔ ∃ fr ∈ st, fr.name = x := by
  simp [foldersOf]

theorem deleteFoldersLoop_ok (subs : List PyStr) :
    ∀ st : MailServer, subs.Nodup → (∀ s ∈ subs, s ∈ foldersOf st) →
      deleteFoldersLoop st subs = .ok (st.filter fun fr => decide (fr.name ∉ subs)) := by
  induction subs with
  | nil =>
      intro st _ _
      rw [deleteFoldersLoop]
      congr 1
      simp
  | cons s rest ih =>
      intro st hnd hmem
      rw [deleteFoldersLoop, delete_folder, if_pos (hmem s (by simp)), exceptBind_ok]
      have hnd' : rest.Nodup := hnd.of_cons
      have hs : s ∉ rest := (List.nodup_cons.mp hnd).1
      have hmem' : ∀ t ∈ rest, t ∈ foldersOf (st.filter fun fr => decide (fr.name ≠ s)) := by
        intro t ht
        have htf : t ∈ foldersOf st := hmem t (by simp [ht])
        rw [mem_foldersOf] at htf ⊢
        obtain ⟨fr, hfr, hn⟩ := htf
        refine ⟨fr, List.mem_filter.mpr ⟨hfr, ?_⟩, hn⟩
        simp only [decide_eq_true_eq]
        rw [hn]
        intro hc
        exact hs (hc ▸ ht)
      rw [ih _ hnd' hmem', List.filter_filter]
      congr 1
      apply List.filter_congr
      intro fr _
      rcases Decidable.em (fr.name = s) with h1 | h1 <;>
        rcases Decidable.em (fr.name ∈ rest) with h2 | h2 <;>
          simp [h1, h2]

theorem mem_subfoldersSorted (st : MailServer) (name f : PyStr) :
    f ∈ subfoldersSorted st name ↔
      f ∈ foldersOf st ∧ name <+: f ∧ f ≠ name := by
  rw [subfoldersSorted, sortByDepth, if_pos rfl, List.mem_insertionSort,
    List.mem_filter]
  simp [List.isPrefixOf_iff_prefix, and_assoc]

theorem pairwise_subfoldersSorted (st : MailServer) (name : PyStr) :
    (subfoldersSorted st name).Pairwise fun a b => depth_key b ≤ depth_key a := by
  rw [subfoldersSorted, sortByDepth, if_pos rfl]
  haveI : IsTotal PyStr fun a b => depth_key b ≤ depth_key a :=
    ⟨fun a b => le_total _ _⟩
  haveI : IsTrans PyStr fun a b => depth_key b ≤ depth_key a :=
    ⟨fun _ _ _ hab hbc => le_trans hbc hab⟩
  exact List.sorted_insertionSort _ _

theorem nodup_subfoldersSorted (st : MailServer) (name : PyStr)
    (hnd : (foldersOf st).Nodup) : (subfoldersSorted st name).Nodup := by
  rw [subfoldersSorted, sortByDepth, if_pos rfl]
  exact (List.perm_insertionSort _ _).nodup_iff.mpr (hnd.filter _)

/-- C7 amended: when `Remove` with `recurse = false` reaches an existing
backend folder (the name not being a virtual file of the target folder), it
fails with `YMDFolderIsNotEmptyError` exactly when the folder directly
contains at least one chunk mail; subfolders alone do not block deletion.
When it proceeds (`recurse = true`, or no direct virtual files), it removes
the uids of the folder's direct chunk mails from the target folder (the code
issues the STORE against the target folder, not the folder being removed),
then deletes the subfolders deepest-first, then the folder itself, contents
included. -/
theorem remove_folder_spec (st : MailServer) (target name : PyStr) (recurse : Bool)
    (hnd : (foldersOf st).Nodup)
    (htgt : target ∈ foldersOf st)
    (hname : name ∈ foldersOf st)
    (hnotfile : name ∉ groupKeys (groupFiles (mailsOf st target))) :
    (remove_file_or_folder_recursively st target name recurse =
        .error .folderIsNotEmptyError ↔
      (recurse = false ∧ groupFiles (mailsOf st name) ≠ [])) ∧
    ((recurse = true ∨ groupFiles (mailsOf st name) = []) →
      remove_file_or_folder_recursively st target name recurse =
        .ok (afterRemoveFolder st target name, subfoldersSorted st name ++ [name])) ∧
    (subfoldersSorted st name).Pairwise (fun a b => depth_key b ≤ depth_key a) ∧
    (∀ f, f ∈ subfoldersSorted st name ↔
      f ∈ foldersOf st ∧ name <+: f ∧ f ≠ name) := by
  have h0 : get_files_data_depth0 st target = .ok (groupFiles (mailsOf st target)) :=
    files_data_in_folder_ok st target htgt
  have h2 : _get_files_data_in_folder st name = .ok (groupFiles (mailsOf st name)) :=
    files_data_in_folder_ok st name hname
  have hfold : foldersOf (st.map fun fr =>
      if fr.name = target then
        { fr with mails := fr.mails.filter fun m =>
            decide (m.mail_id ∉
              (((groupFiles (mailsOf st name)).map Prod.snd).flatten).map Mail.mail_id) }
      else fr) = foldersOf st := by
    apply foldersOf_map_keep
    intro fr
    by_cases h : fr.name = target <;> simp [h]
  have hsucc : ¬ (groupFiles (mailsOf st name) ≠ [] ∧ recurse = false) →
      remove_file_or_folder_recursively st target name recurse =
        .ok (afterRemoveFolder st target name, subfoldersSorted st name ++ [name]) := by
    intro hguard
    rw [remove_file_or_folder_recursively, h0]
    simp only [exceptBind_ok]
    rw [if_neg hnotfile, if_neg (not_not_intro hname), h2]
    simp only [exceptBind_ok]
    rw [if_neg hguard, delete_mails, if_pos htgt]
    simp only [exceptBind_ok]
    simp only [_get_subfolders, hfold]
    rw [if_pos hname]
    simp only [exceptBind_ok]
    have hsubs_eq : sortByDepth
        ((foldersOf st).filter fun f => name.isPrefixOf f && decide (f ≠ name)) true =
        subfoldersSorted st name := rfl
    rw [hsubs_eq]
    have hnds := nodup_subfoldersSorted st name hnd
    have hmems : ∀ s ∈ subfoldersSorted st name, s ∈ foldersOf (st.map fun fr =>
        if fr.name = target then
          { fr with mails := fr.mails.filter fun m =>
              decide (m.mail_id ∉
                (((groupFiles (mailsOf st name)).map Prod.snd).flatten).map Mail.mail_id) }
        else fr) := by
      intro s hsmem
      rw [hfold]
      exact ((mem_subfoldersSorted st name s).mp hsmem).1
    rw [deleteFoldersLoop_ok _ _ hnds hmems]
    simp only [exceptBind_ok]
    have hnmem : name ∈ foldersOf ((st.map fun fr =>
        if fr.name = target then
          { fr with mails := fr.mails.filter fun m =>
              decide (m.mail_id ∉
                (((groupFiles (mailsOf st name)).map Prod.snd).flatten).map Mail.mail_id) }
        else fr).filter fun fr => decide (fr.name ∉ subfoldersSorted st name)) := by
      rw [mem_foldersOf]
      have hmem2 : name ∈ foldersOf (st.map fun fr =>
          if fr.name = target then
            { fr with mails := fr.mails.filter fun m =>
                decide (m.mail_id ∉
                  (((groupFiles (mailsOf st name)).map Prod.snd).flatten).map Mail.mail_id) }
          else fr) := by rw [hfold]; exact hname
      rw [mem_foldersOf] at hmem2
      obtain ⟨fr, hfr, hn⟩ := hmem2
      refine ⟨fr, List.mem_filter.mpr ⟨hfr, ?_⟩, hn⟩
      simp only [decide_eq_true_eq, hn]
      intro hc
      exact ((mem_subfoldersSorted st name name).mp hc).2.2 rfl
    rw [delete_folder, if_pos hnmem]
    simp only [exceptBind_ok]
    rw [List.filter_filter]
    have hfeq : ((st.map fun fr =>
        if fr.name = target then
          { fr with mails := fr.mails.filter fun m =>
              decide (m.mail_id ∉
                (((groupFiles (mailsOf st name)).map Prod.snd).flatten).map Mail.mail_id) }
        else fr).filter fun fr =>
          decide (fr.name ≠ name) && decide (fr.name ∉ subfoldersSorted st name)) =
        afterRemoveFolder st target name := by
      simp only [afterRemoveFolder, chunkMailsOf]
      apply List.filter_congr
      intro fr hfr
      have hfrf : fr.name ∈ foldersOf st := by
        rw [← hfold, mem_foldersOf]
        exact ⟨fr, hfr, rfl⟩
      rcases Decidable.em (name <+: fr.name) with hpre | hpre
      · by_cases he : fr.name = name
        · have hnin : fr.name ∉ subfoldersSorted st name := fun hc =>
            ((mem_subfoldersSorted st name _).mp hc).2.2 he
          simp [he, hpre, List.prefix_refl]
        · have hin : fr.name ∈ subfoldersSorted st name :=
            (mem_subfoldersSorted st name _).mpr ⟨hfrf, hpre, he⟩
          simp [hin, hpre]
      · have hns : fr.name ∉ subfoldersSorted st name := fun hc =>
          hpre ((mem_subfoldersSorted st name _).mp hc).2.1
        have hne : fr.name ≠ name := fun hc => hpre (by rw [hc])
        simp [hns, hne, hpre]
    rw [hfeq]
  refine ⟨?_, fun hok => hsucc ?_, pairwise_subfoldersSorted st name,
    fun f => mem_subfoldersSorted st name f⟩
  · by_cases hguard : groupFiles (mailsOf st name) ≠ [] ∧ recurse = false
    · constructor
      · intro _
        exact ⟨hguard.2, hguard.1⟩
      · intro _
        rw [remove_file_or_folder_recursively, h0]
        simp only [exceptBind_ok]
        rw [if_neg hnotfile, if_neg (not_not_intro hname), h2]
        simp only [exceptBind_ok]
        rw [if_pos hguard]
    · rw [hsucc hguard]
      constructor
      · intro hcon
        exact absurd hcon (by simp)
      · intro hcon
        exact absurd ⟨hcon.2, hcon.1⟩ hguard
  · intro hguard
    rcases hok with h | h
    · rw [h] at hguard
      exact absurd hguard.2 (by simp)
    · exact hguard.1 h

/-- Concrete account for the C7 witness: the target folder `ymd` holding one
unrelated chunk mail, a folder `dir` with two chunk mails, and an empty
subfolder `dir/sub`. -/
def stWit : MailServer :=
  [⟨"ymd".toList, [⟨"9".toList, "keep.part1".toList⟩]⟩,
   ⟨"dir".toList, [⟨"1".toList, "a.part1".toList⟩, ⟨"2".toList, "a.part2".toList⟩]⟩,
   ⟨"dir/sub".toList, []⟩]

/-- C7 witness: the amended removal theorem applied with `recurse = true` to
the folder `dir` of `stWit`. -/
theorem remove_folder_spec_witness :
    (foldersOf stWit).Nodup ∧
    remove_file_or_folder_recursively stWit ("ymd".toList) ("dir".toList) true =
      .ok (afterRemoveFolder stWit ("ymd".toList) ("dir".toList),
        subfoldersSorted stWit ("dir".toList) ++ ["dir".toList]) :=
  ⟨by decide,
    (remove_folder_spec stWit ("ymd".toList) ("dir".toList) true (by decide)
      (by decide) (by decide) (by decide)).2.1 (Or.inl rfl)⟩

/-- Concrete account for the C9 witness: folders `ymd` and `ymd2`, the latter
not a path descendant of the former. -/
def stNine : MailServer := [⟨"ymd".toList, []⟩, ⟨"ymd2".toList, []⟩]

/-- C9: `_get_subfolders` succeeds on any known folder and returns exactly the
folders different from it whose full path string starts with it — the test is
plain string-prefix matching, with no check for a `/` separator — sorted by
slash count, ascending for the listing path (`reverse=False`, the default
used by `get_files_data`) and descending when `reverse=True` (the removal
path). -/
theorem subfolders_spec (st : MailServer) (t : PyStr) (rev : Bool)
    (h : t ∈ foldersOf st) :
    ∃ l, _get_subfolders st t rev = .ok l ∧
      (∀ f, f ∈ l ↔ f ∈ foldersOf st ∧ t <+: f ∧ f ≠ t) ∧
      (rev = false → l.Pairwise fun a b => depth_key a ≤ depth_key b) ∧
      (rev = true → l.Pairwise fun a b => depth_key b ≤ depth_key a) := by
  refine ⟨sortByDepth
      ((foldersOf st).filter fun f => t.isPrefixOf f && decide (f ≠ t)) rev,
    ?_, ?_, ?_, ?_⟩
  · rw [_get_subfolders]
    simp only [if_pos h]
  · intro f
    cases rev with
    | false =>
        rw [sortByDepth, if_neg (by simp), List.mem_insertionSort, List.mem_filter]
        simp [List.isPrefixOf_iff_prefix, and_assoc]
    | true =>
        rw [sortByDepth, if_pos rfl, List.mem_insertionSort, List.mem_filter]
        simp [List.isPrefixOf_iff_prefix, and_assoc]
  · intro hrev
    subst hrev
    rw [sortByDepth, if_neg (by simp)]
    haveI : IsTotal PyStr fun a b => depth_key a ≤ depth_key b :=
      ⟨fun a b => le_total _ _⟩
    haveI : IsTrans PyStr fun a b => depth_key a ≤ depth_key b :=
      ⟨fun _ _ _ hab hbc => le_trans hab hbc⟩
    exact List.sorted_insertionSort _ _
  · intro hrev
    subst hrev
    rw [sortByDepth, if_pos rfl]
    haveI : IsTotal PyStr fun a b => depth_key b ≤ depth_key a :=
      ⟨fun a b => le_total _ _⟩
    haveI : IsTrans PyStr fun a b => depth_key b ≤ depth_key a :=
      ⟨fun _ _ _ hab hbc => le_trans hbc hab⟩
    exact List.sorted_insertionSort _ _

/-- C9 witness: with folders `ymd` and `ymd2`, the folder `ymd2` is reported
as a subfolder of `ymd` although it is not a path descendant of it. -/
theorem subfolders_spec_witness :
    ("ymd".toList ∈ foldersOf stNine) ∧
    ∃ l, _get_subfolders stNine ("ymd".toList) false = .ok l ∧
      "ymd2".toList ∈ l := by
  refine ⟨by decide, ?_⟩
  obtain ⟨l, hok, hmem, -, -⟩ :=
    subfolders_spec stNine ("ymd".toList) false (by decide)
  refine ⟨l, hok, (hmem _).mpr ?_⟩
  refine ⟨by decide, ⟨['2'], rfl⟩, by decide⟩

/-- Combination of a previous group entry with the chunks found later. -/
def combineOpt (o : Option (List Mail)) (l : List Mail) : Option (List Mail) :=
  match o with
  | some ms => some (ms ++ l)
  | Option.none => if l = [] then Option.none else some l

theorem lookupGroup_cons (k : PyStr) (ms : List Mail)
    (rest : List (PyStr × List Mail)) (key : PyStr) :
    lookupGroup ((k, ms) :: rest) key =
      if k = key then some ms else lookupGroup rest key := by
  by_cases hk : k = key
  · rw [if_pos hk]
    unfold lookupGroup
    rw [List.find?_cons_of_pos _ (by simpa using hk)]
    rfl
  · rw [if_neg hk]
    unfold lookupGroup
    rw [List.find?_cons_of_neg _ (by simpa using hk)]

theorem lookup_addToGroup_eq (acc : List (PyStr × List Mail)) (key : PyStr)
    (m : Mail) :
    lookupGroup (addToGroup acc key m) key =
      some ((lookupGroup acc key).getD [] ++ [m]) := by
  induction acc with
  | nil =>
      rw [addToGroup, lookupGroup_cons, if_pos rfl]
      rfl
  | cons p rest ih =>
      obtain ⟨k, ms⟩ := p
      by_cases hk : k = key
      · rw [addToGroup, if_pos hk, lookupGroup_cons, if_pos hk,
          lookupGroup_cons, if_pos hk]
        rfl
      · rw [addToGroup, if_neg hk, lookupGroup_cons, if_neg hk,
          lookupGroup_cons, if_neg hk, ih]

theorem lookup_addToGroup_ne (acc : List (PyStr × List Mail)) (k' key : PyStr)
    (m : Mail) (h : k' ≠ key) :
    lookupGroup (addToGroup acc k' m) key = lookupGroup acc key := by
  induction acc with
  | nil =>
      rw [addToGroup, lookupGroup_cons, if_neg h]
  | cons p rest ih =>
      obtain ⟨k, ms⟩ := p
      by_cases hk : k = k'
      · rw [addToGroup, if_pos hk, lookupGroup_cons, lookupGroup_cons]
        have hkk : ¬ k = key := fun hc => h (hk ▸ hc)
        rw [if_neg hkk, if_neg hkk]
      · rw [addToGroup, if_neg hk, lookupGroup_cons, lookupGroup_cons]
        by_cases hkey : k = key
        · rw [if_pos hkey, if_pos hkey]
        · rw [if_neg hkey, if_neg hkey, ih]

theorem groupFold (mails : List Mail) :
    ∀ acc key, lookupGroup (mails.foldl groupStep acc) key =
      combineOpt (lookupGroup acc key)
        (mails.filter fun m =>
          decide (_get_file_name_from_subject m.subject = some key)) := by
  induction mails with
  | nil =>
      intro acc key
      rw [List.foldl_nil, List.filter_nil]
      cases h : lookupGroup acc key <;> simp [combineOpt, h]
  | cons m rest ih =>
      intro acc key
      rw [List.foldl_cons]
      cases hf : _get_file_name_from_subject m.subject with
      | none =>
          rw [show groupStep acc m = acc from by simp [groupStep, hf]]
          rw [ih, List.filter_cons]
          simp [hf]
      | some fn =>
          by_cases hkey : fn = key
          · subst hkey
            rw [show groupStep acc m = addToGroup acc fn m from by
              simp [groupStep, hf]]
            rw [ih, lookup_addToGroup_eq, List.filter_cons]
            rw [if_pos (by simp [hf])]
            cases h : lookupGroup acc fn <;>
              simp [combineOpt, h]
          · rw [show groupStep acc m = addToGroup acc fn m from by
              simp [groupStep, hf]]
            rw [ih, lookup_addToGroup_ne _ _ _ _ hkey, List.filter_cons]
            have : ¬ (_get_file_name_from_subject m.subject = some key) := by
              rw [hf]
              exact fun hc => hkey (Option.some.inj hc)
            simp [this]

/-- C10: a mail contributes to a virtual file exactly when its subject
contains the substring `".part"`; the file name is the prefix before the
first occurrence, with no validation of what follows `".part"` (a subject
like `notes.partial` counts as a chunk of file `notes`); mails whose subject
lacks `".part"` are skipped; and the chunk list of each file is exactly the
subsequence of the folder's mails with that file name, in listing order. -/
theorem group_by_subject_spec :
    (∀ s : PyStr, _get_file_name_from_subject s = Option.none ↔
      ∀ a b : PyStr, s ≠ a ++ dotPart ++ b) ∧
    (∀ s n : PyStr, _get_file_name_from_subject s = some n →
      (∃ b, s = n ++ dotPart ++ b) ∧
      ∀ a b : PyStr, s = a ++ dotPart ++ b → n.length ≤ a.length) ∧
    (∀ mails : List Mail, ∀ key : PyStr,
      lookupGroup (groupFiles mails) key =
        (if (mails.filter fun m =>
            decide (_get_file_name_from_subject m.subject = some key)) = []
         then Option.none
         else some (mails.filter fun m =>
            decide (_get_file_name_from_subject m.subject = some key)))) := by
  refine ⟨?_, ?_, ?_⟩
  · intro s
    constructor
    · intro h
      cases hs : splitFirst dotPart s with
      | none => exact (splitFirst_none_iff dotPart s).mp hs
      | some p =>
          obtain ⟨p1, p2⟩ := p
          rw [_get_file_name_from_subject, hs] at h
          exact absurd h (by simp)
    · intro h
      have hs := (splitFirst_none_iff dotPart s).mpr h
      rw [_get_file_name_from_subject, hs]
  · intro s n h
    cases hs : splitFirst dotPart s with
    | none =>
        rw [_get_file_name_from_subject, hs] at h
        exact absurd h (by simp)
    | some p =>
        obtain ⟨p1, p2⟩ := p
        rw [_get_file_name_from_subject, hs] at h
        have hn : p1 = n := by simpa using h
        subst hn
        exact ⟨⟨p2, splitFirst_sound dotPart s p1 p2 hs⟩,
          fun a b heq => splitFirst_minimal dotPart s p1 p2 hs a b heq⟩
  · intro mails key
    rw [groupFiles, groupFold]
    rfl

/-- C10 witness: the subject `notes.partial` is grouped as a chunk of the
file `notes` — the text after `".part"` is not validated — and the group
entry preserves the mail. -/
theorem group_by_subject_witness :
    _get_file_name_from_subject ("notes.partial".toList) = some ("notes".toList) ∧
    (∃ b, "notes.partial".toList = "notes".toList ++ dotPart ++ b) ∧
    lookupGroup (groupFiles [⟨"1".toList, "notes.partial".toList⟩]) ("notes".toList) =
      some [⟨"1".toList, "notes.partial".toList⟩] := by
  refine ⟨rfl,
    (group_by_subject_spec.2.1 ("notes.partial".toList) ("notes".toList) rfl).1, ?_⟩
  rw [group_by_subject_spec.2.2 [⟨"1".toList, "notes.partial".toList⟩] ("notes".toList)]
  rfl

/-! ## Folder name codec (`mail_utils.encode_folder_name` / `decode_folder_name`)

The codec calls Python's `utf-7` codec on runs of characters.  The CPython
codec is modelled bit-exactly below: UTF-16 code units (with surrogate pairs
above the BMP), modified base64 in 6-bit groups padded with zero bits, shift
sequences opened with `+` and closed with `-` only when the following
character is a base64-alphabet character or `-` (or at end of input), and
the character set the encoder passes through directly — `\t`, `\n`, `\r` and
the printable ASCII range 0x20-0x7D except `+` and `\` — with `+` written as
`+-` outside shift sequences. -/

/-- The low `w` bits of `n`, least significant first. -/
def natBitsLSB : Nat → Nat → List Bool
  | 0, _ => []
  | w + 1, n => (n % 2 == 1) :: natBitsLSB w (n / 2)

/-- The low `w` bits of `n`, most significant first. -/
def natToBits (w n : Nat) : List Bool := (natBitsLSB w n).reverse

/-- The number whose big-endian bits are `l`. -/
def bitsToNat (l : List Bool) : Nat :=
  l.foldl (fun acc b => 2 * acc + (if b then 1 else 0)) 0

/-- The base64 alphabet used by UTF-7 (before the IMAP substitutions). -/
def b64chars : PyStr :=
  "ABCDEFGHIJKLMNOPQRSTUVWXYZabcdefghijklmnopqrstuvwxyz0123456789+/".toList

/-- The base64 character of a 6-bit value. -/
def b64chr (n : Nat) : Char := b64chars.getD n '?'

/-- The 6-bit value of a base64 character, `none` for other characters. -/
def b64val (c : Char) : Option Nat := b64chars.findIdx? fun x => x = c

/-- Fuelled worker for `b64encodeBits` (the fuel only serves structural
recursion; it is always sufficient). -/
def b64encodeBitsF : Nat → List Bool → PyStr
  | 0, _ => []
  | fuel + 1, bits =>
    if bits = [] then []
    else if bits.length < 6 then
      [b64chr (bitsToNat (bits ++ List.replicate (6 - bits.length) false))]
    else b64chr (bitsToNat (bits.take 6)) :: b64encodeBitsF fuel (bits.drop 6)

/-- Base64 of a bit string: 6-bit groups, the last group padded with zero
bits, no `=` padding. -/
def b64encodeBits (bits : List Bool) : PyStr := b64encodeBitsF (bits.length + 1) bits

/-- The bit string denoted by a string of base64 characters, `none` when a
character is outside the alphabet. -/
def b64decodeBits : PyStr → Option (List Bool)
  | [] => some []
  | c :: rest => (b64val c).bind fun v =>
      (b64decodeBits rest).map fun bs => natToBits 6 v ++ bs

/-- The UTF-16 code units of a character: itself below 0x10000, a surrogate
pair above. -/
def utf16units (c : Char) : List Nat :=
  if c.toNat < 0x10000 then [c.toNat]
  else [0xD800 + (c.toNat - 0x10000) / 0x400, 0xDC00 + (c.toNat - 0x10000) % 0x400]

/-- The big-endian UTF-16 bit string of a character run. -/
def bitsOfChars (g : PyStr) : List Bool :=
  (((g.map utf16units).flatten).map (natToBits 16)).flatten

/-- Fuelled worker cutting a bit string into 16-bit units; mirrors CPython's
decoder end check: leftover bits are accepted only when fewer than 6 and all
zero (otherwise `unterminated shift sequence` / `partial character`). -/
def unitsOfBitsF : Nat → List Bool → Option (List Nat)
  | 0, _ => Option.none
  | fuel + 1, bits =>
    if bits.length < 16 then
      if bits.length < 6 ∧ bits.all (fun b => !b) = true then some [] else Option.none
    else (unitsOfBitsF fuel (bits.drop 16)).map fun us => bitsToNat (bits.take 16) :: us

/-- The 16-bit units of a bit string (see `unitsOfBitsF`). -/
def unitsOfBits (bits : List Bool) : Option (List Nat) :=
  unitsOfBitsF (bits.length + 1) bits

/-- Characters from UTF-16 units, combining surrogate pairs.  CPython keeps a
lone surrogate as a surrogate code point in the resulting `str`; a Lean
`Char` cannot hold one, so the model reports failure there — the case is not
reachable from the encoder's output, which the theorems below feed it. -/
def unitsToChars : List Nat → Option PyStr
  | [] => some []
  | u :: rest =>
    if 0xD800 ≤ u ∧ u < 0xDC00 then
      match rest with
      | u2 :: rest2 =>
        if 0xDC00 ≤ u2 ∧ u2 < 0xE000 then
          (unitsToChars rest2).map fun cs =>
            Char.ofNat (0x10000 + (u - 0xD800) * 0x400 + (u2 - 0xDC00)) :: cs
        else Option.none
      | [] => Option.none
    else if 0xDC00 ≤ u ∧ u < 0xE000 then Option.none
    else (unitsToChars rest).map fun cs => Char.ofNat u :: cs

/-- Model of Python `("+" + enc).encode().decode("utf-7")` for `enc` made of
modified-base64 characters only — the shape the encoder produces and the only
shape the theorems below feed it (on other inputs CPython's decoder leaves
the shift sequence at the first non-base64 character; that behaviour is not
modelled). -/
def pyUtf7DecodePlus (enc : PyStr) : Option PyStr :=
  (b64decodeBits enc).bind fun bits =>
    (unitsOfBits bits).bind fun us => unitsToChars us

/-- The characters CPython's UTF-7 encoder passes through directly: `\t`,
`\n`, `\r` and printable ASCII 0x20-0x7D except `+` (0x2B) and `\` (0x5C). -/
def utf7Direct (c : Char) : Bool :=
  c.toNat == 9 || c.toNat == 10 || c.toNat == 13 ||
    (decide (32 ≤ c.toNat) && decide (c.toNat ≤ 125) &&
      !(c.toNat == 43) && !(c.toNat == 92))

/-- Emission of full 6-bit groups from the pending bit buffer; returns the
emitted characters and the remaining (fewer than 6) bits. -/
def emitAll : List Bool → PyStr × List Bool
  | b1 :: b2 :: b3 :: b4 :: b5 :: b6 :: rest =>
    ((b64chr (bitsToNat [b1, b2, b3, b4, b5, b6])) :: (emitAll rest).1, (emitAll rest).2)
  | r => ([], r)

/-- The shift terminator emitted before a direct character: `-` exactly when
the character is in the base64 alphabet or is `-` itself. -/
def termFor (c : Char) : PyStr :=
  if (b64val c).isSome || c == '-' then ['-'] else []

/-- Flushing the pending bits (fewer than 6) at the end of a shift
sequence. -/
def utf7Flush (bits : List Bool) : PyStr :=
  if bits = [] then []
  else [b64chr (bitsToNat (bits ++ List.replicate (6 - bits.length) false))]

/-- One pass of CPython's UTF-7 encoder: the flag tells whether a shift
sequence is open, the bit list is the pending base64 buffer (always fewer
than 6 bits). -/
def utf7EncGo : PyStr → Bool → List Bool → PyStr
  | [], inShift, bits => if inShift then utf7Flush bits ++ ['-'] else []
  | c :: rest, true, bits =>
    if utf7Direct c then
      utf7Flush bits ++ termFor c ++ c :: utf7EncGo rest false []
    else
      (emitAll (bits ++ ((utf16units c).map (natToBits 16)).flatten)).1 ++
        utf7EncGo rest true
          (emitAll (bits ++ ((utf16units c).map (natToBits 16)).flatten)).2
  | c :: rest, false, _ =>
    if utf7Direct c then c :: utf7EncGo rest false []
    else if c = '+' then '+' :: '-' :: utf7EncGo rest false []
    else
      '+' :: ((emitAll (((utf16units c).map (natToBits 16)).flatten)).1 ++
        utf7EncGo rest true (emitAll (((utf16units c).map (natToBits 16)).flatten)).2)

/-- Model of Python `"".join(chars).encode("utf-7").decode()`. -/
def pyUtf7Encode (s : PyStr) : PyStr := utf7EncGo s false []

/-- Translation of `encode_chars` inside `encode_folder_name`
(`src/ymd/mail_utils.py`, lines 360-366): UTF-7 then `+`→`&` and `/`→`,`. -/
def encodeChars (chars_to_encode : PyStr) : PyStr :=
  replaceOne '/' [','] (replaceOne '+' ['&'] (pyUtf7Encode chars_to_encode))

/-- The check `ord(char) in range(0x20, 0x7E)` of `encode_folder_name`
(`src/ymd/mail_utils.py`, line 381): 0x20 inclusive, 0x7E exclusive. -/
def isFolderDirect (c : Char) : Bool :=
  decide (32 ≤ c.toNat) && decide (c.toNat < 126)

/-- Translation of the scanning loop of `encode_folder_name`
(`src/ymd/mail_utils.py`, lines 368-394): `&` flushes the pending run and
becomes `&-`; characters of 0x20-0x7D are flushed-then-copied; every other
character joins the pending run, encoded at the next boundary. -/
def encodeGo : PyStr → PyStr → PyStr
  | [], chars_to_encode =>
    if chars_to_encode = [] then [] else encodeChars chars_to_encode
  | c :: rest, chars_to_encode =>
    if c = '&' then
      (if chars_to_encode = [] then [] else encodeChars chars_to_encode) ++
        '&' :: '-' :: encodeGo rest []
    else if isFolderDirect c then
      (if chars_to_encode = [] then [] else encodeChars chars_to_encode) ++
        c :: encodeGo rest []
    else encodeGo rest (chars_to_encode ++ [c])

/-- Translation of `mail_utils.encode_folder_name` (lines 353-397): the
scanned-and-encoded body with backslashes doubled and double quotes
escaped, wrapped in double quotes. -/
def encode_folder_name (folder_name : PyStr) : PyStr :=
  '"' :: (replaceOne '"' ['\\', '"']
    (replaceOne '\\' ['\\', '\\'] (encodeGo folder_name []))) ++ ['"']

/-- Model of Python `str.split(sep)` for a one-character separator: split at
every occurrence, keeping empty fields. -/
def pySplitChar (sep : Char) : PyStr → List PyStr
  | [] => [[]]
  | c :: rest =>
    if c = sep then [] :: pySplitChar sep rest
    else
      match pySplitChar sep rest with
      | p :: ps => (c :: p) :: ps
      | [] => [[c]]

/-- Translation of the loop body of `decode_folder_name`
(`src/ymd/mail_utils.py`, lines 410-420) for one `&`-part: split at the first
`-` (`ValueError` when absent, from unpacking a one-element list into two
names), restore `/`, decode the UTF-7 payload, and prepend a literal `&` when
the payload is empty. -/
def decodePart (part : PyStr) : Except PyErr PyStr :=
  match splitFirst ['-'] part with
  | Option.none => .error .valueError
  | some (encoded_chars, normal_chars) =>
    match pyUtf7DecodePlus (replaceOne ',' ['/'] encoded_chars) with
    | Option.none => .error .unicodeDecodeError
    | some decoded_chars =>
      .ok ((if encoded_chars = [] then ['&'] else []) ++ decoded_chars ++ normal_chars)

/-- Concatenation of the decoded `&`-parts, failing at the first bad part. -/
def decodeParts : List PyStr → Except PyErr PyStr
  | [] => .ok []
  | p :: rest =>
    (decodePart p) >>= fun dp => (decodeParts rest) >>= fun ds => .ok (dp ++ ds)

/-- Translation of `mail_utils.decode_folder_name` (lines 400-423): split on
`&`, keep the first part verbatim, decode the remaining parts, join, and
collapse doubled backslashes. -/
def decode_folder_name (encoded_folder_name : PyStr) : Except PyErr PyStr :=
  match pySplitChar '&' encoded_folder_name with
  | [] => .error .valueError
  | p0 :: parts =>
    (decodeParts parts) >>= fun ds =>
      .ok (replacePair '\\' '\\' ['\\'] (p0 ++ ds))

/-- The quote stripping `extract_list_result` applies to each listed folder
before `decode_folder_name` sees it (`src/ymd/mail_utils.py`, line 348). -/
def stripQuotes (s : PyStr) : PyStr := removeSuffixB (removePrefixB s ['"']) ['"']

/-- The unescaping `get_all_folders` applies before decoding:
`folder.replace(r'\"', '"')` (`src/ymd/mail_utils.py`, line 169 /
`src/ymd/yahoomail.py`, line 77). -/
def unescQuote : PyStr → PyStr := replacePair '\\' '"' ['"']

/-- C1 counterexample: the round trip as literally claimed,
`decode_folder_name(encode_folder_name(s))`, fails already for `s = "a"`:
`encode_folder_name` wraps its result in double quotes (they are part of the
IMAP quoted string), `decode_folder_name` does not strip them — the quotes
are stripped by `extract_list_result` and the escaping undone by
`get_all_folders`, in between the two in the real pipeline — so the direct
composition returns `"a"` with quotes, not `a`. -/
theorem codec_roundtrip_cex :
    decode_folder_name (encode_folder_name ['a']) = .ok ['"', 'a', '"'] ∧
    decode_folder_name (encode_folder_name ['a']) ≠ .ok ['a'] := by
  have h : decode_folder_name (encode_folder_name ['a']) = .ok ['"', 'a', '"'] := rfl
  refine ⟨h, ?_⟩
  rw [h]
  intro hcon
  have := Except.ok.inj hcon
  simp at this

theorem length_natBitsLSB (w : Nat) : ∀ n, (natBitsLSB w n).length = w := by
  induction w with
  | zero => intro n; rfl
  | succ k ih => intro n; simp [natBitsLSB, ih]

theorem length_natToBits (w n : Nat) : (natToBits w n).length = w := by
  simp [natToBits, length_natBitsLSB]

theorem bitsToNat_append_bit (l : List Bool) (b : Bool) :
    bitsToNat (l ++ [b]) = 2 * bitsToNat l + (if b then 1 else 0) := by
  simp [bitsToNat, List.foldl_append]

theorem natToBits_succ (w n : Nat) :
    natToBits (w + 1) n = natToBits w (n / 2) ++ [n % 2 == 1] := by
  simp [natToBits, natBitsLSB]

theorem bitsToNat_natToBits (w : Nat) : ∀ n, bitsToNat (natToBits w n) = n % 2 ^ w := by
  induction w with
  | zero => intro n; simp [natToBits, natBitsLSB, bitsToNat, Nat.mod_one]
  | succ k ih =>
      intro n
      rw [natToBits_succ, bitsToNat_append_bit, ih]
      have hdd : n / 2 / 2 ^ k = n / 2 ^ (k + 1) := by
        rw [Nat.div_div_eq_div_mul]
        congr 1
        ring
      have e2 := Nat.div_add_mod (n / 2) (2 ^ k)
      have e3 := Nat.div_add_mod n (2 ^ (k + 1))
      have e4 : 2 ^ (k + 1) * (n / 2 ^ (k + 1)) = 2 * (2 ^ k * (n / 2 / 2 ^ k)) := by
        rw [hdd]
        ring
      rw [e4] at e3
      generalize hQ : 2 ^ k * (n / 2 / 2 ^ k) = Q at e2 e3
      have h2 : n % 2 = 0 ∨ n % 2 = 1 := Nat.mod_two_eq_zero_or_one n
      rcases h2 with h | h <;> simp [h] <;> omega

theorem natToBits_bitsToNat (l : List Bool) : natToBits l.length (bitsToNat l) = l := by
  induction l using List.reverseRecOn with
  | nil => rfl
  | append_singleton l' b ih =>
      rw [bitsToNat_append_bit]
      have hlen : (l' ++ [b]).length = l'.length + 1 := by simp
      rw [hlen, natToBits_succ]
      have hd : (2 * bitsToNat l' + (if b then 1 else 0)) / 2 = bitsToNat l' := by
        cases b <;> simp <;> omega
      have hm2 : (2 * bitsToNat l' + (if b then 1 else 0)) % 2 =
          (if b then 1 else 0) := by
        cases b <;> simp <;> omega
      rw [hd, hm2, ih]
      cases b <;> simp

theorem bitsToNat_lt (l : List Bool) : bitsToNat l < 2 ^ l.length := by
  induction l using List.reverseRecOn with
  | nil => simp [bitsToNat]
  | append_singleton l' b ih =>
      rw [bitsToNat_append_bit]
      simp only [List.length_append, List.length_cons, List.length_nil]
      have hp : 2 ^ (l'.length + (0 + 1)) = 2 * 2 ^ l'.length := by ring
      cases b <;> simp <;> omega

theorem natToBits_of_len (X : List Bool) (w : Nat) (h : X.length = w) :
    natToBits w (bitsToNat X) = X := by
  subst h
  exact natToBits_bitsToNat X

theorem b64val_b64chr : ∀ n : Nat, n < 64 → b64val (b64chr n) = some n := by decide

theorem b64chr_mem : ∀ n : Nat, n < 64 → b64chr n ∈ b64chars := by decide

theorem b64encodeBitsF_fuel : ∀ f1 f2 bits, bits.length < f1 → bits.length < f2 →
    b64encodeBitsF f1 bits = b64encodeBitsF f2 bits := by
  intro f1
  induction f1 with
  | zero => intro f2 bits h1 _; omega
  | succ k ih =>
      intro f2 bits h1 h2
      cases f2 with
      | zero => omega
      | succ k2 =>
          rw [b64encodeBitsF, b64encodeBitsF]
          by_cases hb : bits = []
          · rw [if_pos hb, if_pos hb]
          · rw [if_neg hb, if_neg hb]
            by_cases hlen : bits.length < 6
            · rw [if_pos hlen, if_pos hlen]
            · rw [if_neg hlen, if_neg hlen]
              congr 1
              apply ih
              · simp only [List.length_drop]
                omega
              · simp only [List.length_drop]
                omega

theorem b64encodeBits_small (bits : List Bool) (h0 : bits ≠ [])
    (h6 : bits.length < 6) :
    b64encodeBits bits =
      [b64chr (bitsToNat (bits ++ List.replicate (6 - bits.length) false))] := by
  rw [b64encodeBits, b64encodeBitsF, if_neg h0, if_pos h6]

theorem b64encodeBits_step (bits : List Bool) (h : 6 ≤ bits.length) :
    b64encodeBits bits =
      b64chr (bitsToNat (bits.take 6)) :: b64encodeBits (bits.drop 6) := by
  have hb : bits ≠ [] := by
    intro hc
    rw [hc] at h
    simp at h
  rw [b64encodeBits, b64encodeBitsF, if_neg hb, if_neg (by omega)]
  congr 1
  apply b64encodeBitsF_fuel <;> simp only [List.length_drop] <;> omega

theorem b64_roundtrip (bits : List Bool) :
    b64decodeBits (b64encodeBits bits) =
      some (bits ++ List.replicate ((6 - bits.length % 6) % 6) false) := by
  have H : ∀ n bits2, (bits2 : List Bool).length ≤ n →
      b64decodeBits (b64encodeBits bits2) =
        some (bits2 ++ List.replicate ((6 - bits2.length % 6) % 6) false) := by
    intro n
    induction n with
    | zero =>
        intro bits2 h
        have : bits2 = [] := List.eq_nil_of_length_eq_zero (Nat.le_zero.mp h)
        subst this
        rfl
    | succ k ih =>
        intro bits2 h
        by_cases hb : bits2 = []
        · subst hb; rfl
        · by_cases h6 : bits2.length < 6
          · rw [b64encodeBits_small bits2 hb h6]
            have hlen6 : (bits2 ++ List.replicate (6 - bits2.length) false).length = 6 := by
              simp only [List.length_append, List.length_replicate]
              omega
            have hval : bitsToNat (bits2 ++ List.replicate (6 - bits2.length) false) < 64 := by
              have := bitsToNat_lt (bits2 ++ List.replicate (6 - bits2.length) false)
              rw [hlen6] at this
              exact this
            rw [b64decodeBits, b64val_b64chr _ hval]
            have hnt : natToBits 6 (bitsToNat (bits2 ++ List.replicate (6 - bits2.length) false)) =
                bits2 ++ List.replicate (6 - bits2.length) false :=
              natToBits_of_len _ 6 hlen6
            simp only [Option.some_bind, b64decodeBits, Option.map_some', hnt,
              List.append_nil, Option.some.injEq]
            congr 2
            have h1 : bits2.length % 6 = bits2.length :=
              Nat.mod_eq_of_lt h6
            have h0 : bits2.length ≠ 0 := fun hc => hb (List.eq_nil_of_length_eq_zero hc)
            rw [h1]
            rw [Nat.mod_eq_of_lt (by omega)]
          · rw [b64encodeBits_step bits2 (by omega)]
            rw [b64decodeBits]
            have htake : (bits2.take 6).length = 6 := by
              simp only [List.length_take]
              omega
            have hvlt : bitsToNat (bits2.take 6) < 64 := by
              have := bitsToNat_lt (bits2.take 6)
              rw [htake] at this
              exact this
            rw [b64val_b64chr _ hvlt]
            have hrec := ih (bits2.drop 6) (by simp only [List.length_drop]; omega)
            rw [hrec]
            have hnt : natToBits 6 (bitsToNat (bits2.take 6)) = bits2.take 6 :=
              natToBits_of_len _ 6 htake
            simp only [Option.some_bind, Option.map_some', hnt, Option.some.injEq]
            have hmod : (bits2.drop 6).length % 6 = bits2.length % 6 := by
              simp only [List.length_drop]
              omega
            rw [hmod, ← List.append_assoc, List.take_append_drop]
  exact H bits.length bits (Nat.le_refl _)

theorem mem_b64encodeBits (bits : List Bool) (c : Char)
    (hm : c ∈ b64encodeBits bits) : c ∈ b64chars := by
  have H : ∀ n bits2, (bits2 : List Bool).length ≤ n → ∀ c,
      c ∈ b64encodeBits bits2 → c ∈ b64chars := by
    intro n
    induction n with
    | zero =>
        intro bits2 h c2 hc
        have : bits2 = [] := List.eq_nil_of_length_eq_zero (Nat.le_zero.mp h)
        subst this
        simp [b64encodeBits, b64encodeBitsF] at hc
    | succ k ih =>
        intro bits2 h c2 hc
        by_cases hb : bits2 = []
        · subst hb
          simp [b64encodeBits, b64encodeBitsF] at hc
        · by_cases h6 : bits2.length < 6
          · rw [b64encodeBits_small bits2 hb h6] at hc
            have hlen6 : (bits2 ++ List.replicate (6 - bits2.length) false).length = 6 := by
              simp only [List.length_append, List.length_replicate]
              omega
            have hval : bitsToNat (bits2 ++ List.replicate (6 - bits2.length) false) < 64 := by
              have := bitsToNat_lt (bits2 ++ List.replicate (6 - bits2.length) false)
              rw [hlen6] at this
              exact this
            simp only [List.mem_singleton] at hc
            exact hc ▸ b64chr_mem _ hval
          · rw [b64encodeBits_step bits2 (by omega)] at hc
            rcases List.mem_cons.mp hc with hc | hc
            · have htake : (bits2.take 6).length = 6 := by
                simp only [List.length_take]
                omega
              have hvlt : bitsToNat (bits2.take 6) < 64 := by
                have := bitsToNat_lt (bits2.take 6)
                rw [htake] at this
                exact this
              exact hc ▸ b64chr_mem _ hvlt
            · exact ih (bits2.drop 6) (by simp only [List.length_drop]; omega) c2 hc
  exact H bits.length bits (Nat.le_refl _) c hm

theorem b64encodeBits_ne_nil (bits : List Bool) (h : bits ≠ []) :
    b64encodeBits bits ≠ [] := by
  by_cases h6 : bits.length < 6
  · rw [b64encodeBits_small bits h h6]
    simp
  · rw [b64encodeBits_step bits (by omega)]
    simp

theorem unitsOfBitsF_fuel : ∀ f1 f2 bits, bits.length < f1 → bits.length < f2 →
    unitsOfBitsF f1 bits = unitsOfBitsF f2 bits := by
  intro f1
  induction f1 with
  | zero => intro f2 bits h1 _; omega
  | succ k ih =>
      intro f2 bits h1 h2
      cases f2 with
      | zero => omega
      | succ k2 =>
          rw [unitsOfBitsF, unitsOfBitsF]
          by_cases hlen : bits.length < 16
          · rw [if_pos hlen, if_pos hlen]
          · rw [if_neg hlen, if_neg hlen]
            congr 1
            apply ih
            · simp only [List.length_drop]
              omega
            · simp only [List.length_drop]
              omega

theorem unitsOfBits_small (bits : List Bool) (h : bits.length < 16) :
    unitsOfBits bits =
      if bits.length < 6 ∧ bits.all (fun b => !b) = true then some [] else Option.none := by
  rw [unitsOfBits, unitsOfBitsF, if_pos h]

theorem unitsOfBits_step (bits : List Bool) (h : 16 ≤ bits.length) :
    unitsOfBits bits =
      (unitsOfBits (bits.drop 16)).map fun us => bitsToNat (bits.take 16) :: us := by
  rw [unitsOfBits, unitsOfBitsF, if_neg (by omega)]
  have hf : unitsOfBitsF bits.length (bits.drop 16) = unitsOfBits (bits.drop 16) := by
    rw [unitsOfBits]
    apply unitsOfBitsF_fuel <;> simp only [List.length_drop] <;> omega
  rw [hf]

theorem units_roundtrip (us : List Nat) (pad : List Bool)
    (hu : ∀ u ∈ us, u < 65536) (hp : pad.length < 6) (hz : ∀ b ∈ pad, b = false) :
    unitsOfBits ((us.map (natToBits 16)).flatten ++ pad) = some us := by
  induction us with
  | nil =>
      simp only [List.map_nil, List.flatten_nil, List.nil_append]
      rw [unitsOfBits_small pad (by omega), if_pos]
      refine ⟨hp, ?_⟩
      rw [List.all_eq_true]
      intro b hb
      rw [hz b hb]
      rfl
  | cons u us' ih =>
      simp only [List.map_cons, List.flatten_cons, List.append_assoc]
      have hlen : (natToBits 16 u ++ ((us'.map (natToBits 16)).flatten ++ pad)).length =
          16 + ((us'.map (natToBits 16)).flatten ++ pad).length := by
        simp [length_natToBits]
      rw [unitsOfBits_step _ (by rw [hlen]; omega)]
      have htake : (natToBits 16 u ++ ((us'.map (natToBits 16)).flatten ++ pad)).take 16 =
          natToBits 16 u := List.take_left' (length_natToBits 16 u)
      have hdrop : (natToBits 16 u ++ ((us'.map (natToBits 16)).flatten ++ pad)).drop 16 =
          (us'.map (natToBits 16)).flatten ++ pad := List.drop_left' (length_natToBits 16 u)
      rw [htake, hdrop, ih (fun v hv => hu v (List.mem_cons_of_mem _ hv))]
      have hval : bitsToNat (natToBits 16 u) = u := by
        rw [bitsToNat_natToBits]
        exact Nat.mod_eq_of_lt (by have := hu u (by simp); norm_num at this ⊢; omega)
      rw [hval]
      rfl

theorem char_toNat_lt (c : Char) : c.toNat < 0x110000 := by
  have hv : Nat.isValidChar c.toNat := c.valid
  rcases hv with h | h
  · omega
  · exact h.2

theorem char_not_surrogate (c : Char) :
    c.toNat < 0xD800 ∨ 0xDFFF < c.toNat := by
  have hv : Nat.isValidChar c.toNat := c.valid
  rcases hv with h | h
  · exact Or.inl h
  · exact Or.inr h.1

theorem utf16_unit_bounds (c : Char) : ∀ u ∈ utf16units c, u < 65536 := by
  intro u hu
  rw [utf16units] at hu
  by_cases h : c.toNat < 0x10000
  · rw [if_pos h] at hu
    simp only [List.mem_singleton] at hu
    omega
  · rw [if_neg h] at hu
    have hc := char_toNat_lt c
    have hdiv : (c.toNat - 0x10000) / 0x400 < 0x400 :=
      Nat.div_lt_of_lt_mul (by omega)
    have hmod : (c.toNat - 0x10000) % 0x400 < 0x400 := Nat.mod_lt _ (by omega)
    simp only [List.mem_cons, List.mem_singleton, List.not_mem_nil, or_false] at hu
    rcases hu with h1 | h2
    · omega
    · omega

theorem unitsToChars_cons (u : Nat) (rest : List Nat) :
    unitsToChars (u :: rest) =
      if 0xD800 <= u ∧ u < 0xDC00 then
        match rest with
        | u2 :: rest2 => if 0xDC00 <= u2 ∧ u2 < 0xE000 then
            (unitsToChars rest2).map fun cs =>
              Char.ofNat (0x10000 + (u - 0xD800) * 0x400 + (u2 - 0xDC00)) :: cs
          else Option.none
        | [] => Option.none
      else if 0xDC00 <= u ∧ u < 0xE000 then Option.none
      else (unitsToChars rest).map fun cs => Char.ofNat u :: cs := by
  rw [unitsToChars.eq_def]

theorem unitsToChars_pair (u u2 : Nat) (rest2 : List Nat)
    (h1 : 0xD800 <= u ∧ u < 0xDC00) (h2 : 0xDC00 <= u2 ∧ u2 < 0xE000) :
    unitsToChars (u :: u2 :: rest2) =
      (unitsToChars rest2).map fun cs =>
        Char.ofNat (0x10000 + (u - 0xD800) * 0x400 + (u2 - 0xDC00)) :: cs := by
  rw [unitsToChars_cons, if_pos h1]
  show (if 0xDC00 <= u2 ∧ u2 < 0xE000 then
      (unitsToChars rest2).map fun cs =>
        Char.ofNat (0x10000 + (u - 0xD800) * 0x400 + (u2 - 0xDC00)) :: cs
    else Option.none) = _
  rw [if_pos h2]

theorem utf16_roundtrip : ∀ g : PyStr, unitsToChars ((g.map utf16units).flatten) = some g := by
  intro g
  induction g with
  | nil => rfl
  | cons c g' ih =>
      simp only [List.map_cons, List.flatten_cons]
      rw [utf16units]
      by_cases h : c.toNat < 0x10000
      · rw [if_pos h]
        have hns := char_not_surrogate c
        rw [List.singleton_append, unitsToChars_cons,
          if_neg (by omega), if_neg (by omega), ih]
        simp
      · rw [if_neg h]
        have hc := char_toNat_lt c
        have hdiv : (c.toNat - 0x10000) / 0x400 < 0x400 :=
          Nat.div_lt_of_lt_mul (by omega)
        have hmod : (c.toNat - 0x10000) % 0x400 < 0x400 := Nat.mod_lt _ (by omega)
        rw [List.cons_append, List.cons_append, List.nil_append,
          unitsToChars_pair _ _ _ (by omega) (by omega), ih]
        simp only [Option.map_some', Option.some.injEq, List.cons.injEq, and_true]
        have harith : 0x10000 + (0xD800 + (c.toNat - 0x10000) / 0x400 - 0xD800) * 0x400 +
            (0xDC00 + (c.toNat - 0x10000) % 0x400 - 0xDC00) = c.toNat := by
          have hdm := Nat.div_add_mod (c.toNat - 0x10000) 0x400
          omega
        rw [harith, Char.ofNat_toNat]

theorem bitsOfChars_length (g : PyStr) :
    bitsOfChars g = (((g.map utf16units).flatten).map (natToBits 16)).flatten := rfl

theorem decodePlus_of_encode (g : PyStr) :
    pyUtf7DecodePlus (b64encodeBits (bitsOfChars g)) = some g := by
  rw [pyUtf7DecodePlus, b64_roundtrip]
  have hunits : unitsOfBits (bitsOfChars g ++
      List.replicate ((6 - (bitsOfChars g).length % 6) % 6) false) =
      some ((g.map utf16units).flatten) := by
    rw [bitsOfChars_length]
    apply units_roundtrip
    · intro u hu
      simp only [List.mem_flatten, List.mem_map] at hu
      obtain ⟨l, ⟨c, hc, rfl⟩, hul⟩ := hu
      exact utf16_unit_bounds c u hul
    · simp only [List.length_replicate]
      exact Nat.mod_lt _ (by omega)
    · intro b hb
      exact List.eq_of_mem_replicate hb
  rw [Option.some_bind, hunits, Option.some_bind, utf16_roundtrip]

theorem replaceOne_append (a : Char) (repl : PyStr) (x y : PyStr) :
    replaceOne a repl (x ++ y) = replaceOne a repl x ++ replaceOne a repl y := by
  induction x with
  | nil => rfl
  | cons c r ih =>
      rw [List.cons_append, replaceOne, replaceOne]
      by_cases h : c = a
      · rw [if_pos h, if_pos h, ih, List.append_assoc]
      · rw [if_neg h, if_neg h, ih, List.cons_append]

theorem replaceOne_of_not_mem (a : Char) (repl : PyStr) (s : PyStr) (h : a ∉ s) :
    replaceOne a repl s = s := by
  induction s with
  | nil => rfl
  | cons c r ih =>
      rw [replaceOne, if_neg (fun hc => h (by simp [hc]))]
      rw [ih fun hc => h (List.mem_cons_of_mem _ hc)]

theorem mem_replaceOne (a : Char) (repl : PyStr) (s : PyStr) (c : Char)
    (h : c ∈ replaceOne a repl s) : c ∈ s ∨ c ∈ repl := by
  induction s with
  | nil => simp [replaceOne] at h
  | cons d r ih =>
      rw [replaceOne] at h
      by_cases hd : d = a
      · rw [if_pos hd] at h
        rcases List.mem_append.mp h with h | h
        · exact Or.inr h
        · rcases ih h with h | h
          · exact Or.inl (List.mem_cons_of_mem _ h)
          · exact Or.inr h
      · rw [if_neg hd] at h
        rcases List.mem_cons.mp h with h | h
        · exact Or.inl (by simp [h])
        · rcases ih h with h | h
          · exact Or.inl (List.mem_cons_of_mem _ h)
          · exact Or.inr h

theorem replaceOne_ne_nil (a : Char) (repl : PyStr) (s : PyStr)
    (hs : s ≠ []) (hr : repl ≠ []) : replaceOne a repl s ≠ [] := by
  cases s with
  | nil => exact absurd rfl hs
  | cons c r =>
      rw [replaceOne]
      by_cases h : c = a
      · rw [if_pos h]
        cases repl with
        | nil => exact absurd rfl hr
        | cons x xs => simp
      · rw [if_neg h]
        simp

theorem replaceOne_inv (s : PyStr) (h : ',' ∉ s) :
    replaceOne ',' ['/'] (replaceOne '/' [','] s) = s := by
  induction s with
  | nil => rfl
  | cons c r ih =>
      rw [replaceOne]
      by_cases hc : c = '/'
      · rw [if_pos hc, List.singleton_append, replaceOne, if_pos rfl,
          List.singleton_append, ih fun hm => h (List.mem_cons_of_mem _ hm), hc]
      · rw [if_neg hc, replaceOne,
          if_neg (fun hm => h (by simp [hm])),
          ih fun hm => h (List.mem_cons_of_mem _ hm)]

/-- The UTF-16 bits of a single character. -/
def charBits (c : Char) : List Bool := ((utf16units c).map (natToBits 16)).flatten

/-- Whitespace characters the UTF-7 encoder passes through directly that are
not direct for the folder codec: tab, newline, carriage return. -/
def isUtf7Ws (c : Char) : Bool :=
  c.toNat == 9 || c.toNat == 10 || c.toNat == 13

theorem emitAll_short (bs : List Bool) (h : bs.length < 6) : emitAll bs = ([], bs) := by
  rcases bs with _ | ⟨b1, _ | ⟨b2, _ | ⟨b3, _ | ⟨b4, _ | ⟨b5, rest⟩⟩⟩⟩⟩
  · rfl
  · rfl
  · rfl
  · rfl
  · rfl
  · have hrest : rest = [] := by
      simp only [List.length_cons] at h
      exact List.eq_nil_of_length_eq_zero (by omega)
    subst hrest
    rfl

theorem emitAll_snd_lt (bs : List Bool) : (emitAll bs).2.length < 6 := by
  have H : ∀ n (bs2 : List Bool), bs2.length ≤ n → (emitAll bs2).2.length < 6 := by
    intro n
    induction n with
    | zero =>
        intro bs2 h
        have : bs2 = [] := List.eq_nil_of_length_eq_zero (Nat.le_zero.mp h)
        subst this
        simp [emitAll]
    | succ k ih =>
        intro bs2 h
        by_cases h6 : bs2.length < 6
        · rw [emitAll_short bs2 h6]
          exact h6
        · rcases bs2 with _ | ⟨b1, _ | ⟨b2, _ | ⟨b3, _ | ⟨b4, _ | ⟨b5, _ | ⟨b6, rest⟩⟩⟩⟩⟩⟩ <;>
            simp only [List.length_cons, List.length_nil] at h6 h ⊢ <;> try omega
          exact ih rest (by omega)
  exact H bs.length bs (Nat.le_refl _)

theorem emit_factor (bs X : List Bool) :
    (emitAll bs).1 ++ b64encodeBits ((emitAll bs).2 ++ X) = b64encodeBits (bs ++ X) := by
  have H : ∀ n (bs2 X2 : List Bool), bs2.length ≤ n →
      (emitAll bs2).1 ++ b64encodeBits ((emitAll bs2).2 ++ X2) =
        b64encodeBits (bs2 ++ X2) := by
    intro n
    induction n with
    | zero =>
        intro bs2 X2 h
        have : bs2 = [] := List.eq_nil_of_length_eq_zero (Nat.le_zero.mp h)
        subst this
        simp [emitAll]
    | succ k ih =>
        intro bs2 X2 h
        by_cases h6 : bs2.length < 6
        · rw [emitAll_short bs2 h6]
          simp
        · rcases bs2 with _ | ⟨b1, _ | ⟨b2, _ | ⟨b3, _ | ⟨b4, _ | ⟨b5, _ | ⟨b6, rest⟩⟩⟩⟩⟩⟩ <;>
            simp only [List.length_cons, List.length_nil] at h6 h <;> try omega
          have hstep : emitAll (b1 :: b2 :: b3 :: b4 :: b5 :: b6 :: rest) =
              (b64chr (bitsToNat [b1, b2, b3, b4, b5, b6]) :: (emitAll rest).1,
                (emitAll rest).2) := rfl
          rw [hstep]
          have hlen : 6 ≤ ((b1 :: b2 :: b3 :: b4 :: b5 :: b6 :: rest) ++ X2).length := by
            simp only [List.length_append, List.length_cons]
            omega
          rw [b64encodeBits_step _ hlen]
          have htake : ((b1 :: b2 :: b3 :: b4 :: b5 :: b6 :: rest) ++ X2).take 6 =
              [b1, b2, b3, b4, b5, b6] := rfl
          have hdrop : ((b1 :: b2 :: b3 :: b4 :: b5 :: b6 :: rest) ++ X2).drop 6 =
              rest ++ X2 := rfl
          rw [htake, hdrop, List.cons_append]
          rw [ih rest X2 (by omega)]
  exact H bs.length bs X (Nat.le_refl _)

theorem bitsOfChars_cons (c : Char) (g : PyStr) :
    bitsOfChars (c :: g) = charBits c ++ bitsOfChars g := by
  simp [bitsOfChars, charBits]

theorem encGo_shift (g : PyStr) (hg : ∀ c ∈ g, utf7Direct c = false) :
    ∀ bits, bits.length < 6 →
      utf7EncGo g true bits = b64encodeBits (bits ++ bitsOfChars g) ++ ['-'] := by
  induction g with
  | nil =>
      intro bits h6
      rw [utf7EncGo]
      rw [if_pos rfl]
      have hb : bitsOfChars [] = [] := rfl
      rw [hb, List.append_nil]
      by_cases he : bits = []
      · subst he
        rfl
      · rw [utf7Flush, if_neg he, b64encodeBits_small bits he h6]
  | cons c g' ih =>
      intro bits _
      have hcd : utf7Direct c = false := hg c (by simp)
      rw [utf7EncGo, if_neg (by simp [hcd])]
      rw [ih (fun d hd => hg d (by simp [hd])) _ (emitAll_snd_lt _)]
      rw [← List.append_assoc, emit_factor, bitsOfChars_cons, List.append_assoc]
      rfl

theorem ws_utf7Direct (c : Char) (h : isUtf7Ws c = true) : utf7Direct c = true := by
  simp only [isUtf7Ws, Bool.or_eq_true, beq_iff_eq] at h
  simp only [utf7Direct, Bool.or_eq_true, beq_iff_eq, Bool.and_eq_true,
    decide_eq_true_eq, Bool.not_eq_true', beq_eq_false_iff_ne]
  omega

theorem nonDirect_ne (c : Char) (h1 : isFolderDirect c = false) (d : Char)
    (hd : isFolderDirect d = true) : c ≠ d := by
  intro hc
  rw [hc, hd] at h1
  exact Bool.noConfusion h1

theorem nonDirect_nonWs_not_utf7Direct (c : Char) (h1 : isFolderDirect c = false)
    (h2 : isUtf7Ws c = false) : utf7Direct c = false := by
  have h1' : ¬ (32 ≤ c.toNat ∧ c.toNat < 126) := by
    intro hc
    have ht : isFolderDirect c = true := by
      simp [isFolderDirect, hc.1, hc.2]
    rw [ht] at h1
    exact Bool.noConfusion h1
  have h2' : c.toNat ≠ 9 ∧ c.toNat ≠ 10 ∧ c.toNat ≠ 13 := by
    refine ⟨?_, ?_, ?_⟩ <;> intro hc <;>
      rw [show isUtf7Ws c = true by simp [isUtf7Ws, hc]] at h2 <;>
      exact Bool.noConfusion h2
  cases hdd : utf7Direct c with
  | false => rfl
  | true =>
      exfalso
      simp only [utf7Direct, Bool.or_eq_true, beq_iff_eq, Bool.and_eq_true,
        decide_eq_true_eq, Bool.not_eq_true', beq_eq_false_iff_ne] at hdd
      omega

theorem pyUtf7Encode_run (w g : PyStr)
    (hw : ∀ c ∈ w, isUtf7Ws c = true)
    (hg : ∀ c ∈ g, utf7Direct c = false ∧ c ≠ '+') :
    pyUtf7Encode (w ++ g) =
      w ++ (if g = [] then [] else '+' :: b64encodeBits (bitsOfChars g) ++ ['-']) := by
  induction w with
  | nil =>
      rw [List.nil_append, List.nil_append]
      cases g with
      | nil => rfl
      | cons c g' =>
          rw [if_neg (by simp)]
          have hc := hg c (by simp)
          rw [pyUtf7Encode, utf7EncGo, if_neg (by simp [hc.1]), if_neg hc.2]
          rw [encGo_shift g' (fun d hd => (hg d (by simp [hd])).1) _ (emitAll_snd_lt _)]
          rw [← List.append_assoc, emit_factor, bitsOfChars_cons]
          rfl
  | cons cw w' ih =>
      rw [List.cons_append, pyUtf7Encode, utf7EncGo]
      have hcw := hw cw (by simp)
      rw [if_pos (ws_utf7Direct cw hcw)]
      rw [show utf7EncGo (w' ++ g) false [] = pyUtf7Encode (w' ++ g) from rfl]
      rw [ih fun d hd => hw d (by simp [hd])]
      rfl

theorem ws_not_mem (c : Char) (h : isUtf7Ws c = true) (d : Char)
    (hd : 32 ≤ d.toNat) : c ≠ d := by
  intro hc
  simp only [isUtf7Ws, Bool.or_eq_true, beq_iff_eq] at h
  rw [hc] at h
  omega

theorem encodeChars_run (w g : PyStr)
    (hw : ∀ c ∈ w, isUtf7Ws c = true)
    (hgw : ∀ c ∈ g, isUtf7Ws c = false)
    (hr : ∀ c ∈ w ++ g, isFolderDirect c = false)
    (hplus : '+' ∉ b64encodeBits (bitsOfChars g)) :
    encodeChars (w ++ g) =
      w ++ (if g = [] then []
            else '&' :: replaceOne '/' [','] (b64encodeBits (bitsOfChars g)) ++ ['-']) := by
  have hg : ∀ c ∈ g, utf7Direct c = false ∧ c ≠ '+' := by
    intro c hc
    have hcr : c ∈ w ++ g := List.mem_append_right _ hc
    refine ⟨nonDirect_nonWs_not_utf7Direct c (hr c hcr) (hgw c hc), ?_⟩
    exact nonDirect_ne c (hr c hcr) '+' (by decide)
  rw [encodeChars, pyUtf7Encode_run _ _ hw hg]
  have hwp : ∀ a : Char, 32 ≤ a.toNat → a ∉ w := by
    intro a ha hmem
    exact ws_not_mem a (hw a hmem) a ha rfl
  by_cases hge : g = []
  · rw [if_pos hge, if_pos hge, List.append_nil]
    rw [replaceOne_of_not_mem _ _ _ (hwp '+' (by decide)),
      replaceOne_of_not_mem _ _ _ (hwp '/' (by decide))]
  · rw [if_neg hge, if_neg hge]
    rw [List.cons_append, replaceOne_append, replaceOne_append]
    rw [replaceOne_of_not_mem '+' _ _ (hwp '+' (by decide))]
    have hbenc : '+' ∉ b64encodeBits (bitsOfChars g) ++ ['-'] := by
      intro hc
      rcases List.mem_append.mp hc with hc | hc
      · exact hplus hc
      · simp at hc
    have h1 : replaceOne '+' ['&']
        ('+' :: (b64encodeBits (bitsOfChars g) ++ ['-'])) =
        '&' :: (b64encodeBits (bitsOfChars g) ++ ['-']) := by
      rw [replaceOne, if_pos rfl, List.singleton_append,
        replaceOne_of_not_mem _ _ _ hbenc]
    rw [h1]
    rw [replaceOne_of_not_mem '/' _ _ (hwp '/' (by decide))]
    have h2 : replaceOne '/' [',']
        ('&' :: (b64encodeBits (bitsOfChars g) ++ ['-'])) =
        '&' :: (replaceOne '/' [','] (b64encodeBits (bitsOfChars g)) ++ ['-']) := by
      rw [replaceOne, if_neg (by decide), replaceOne_append]
      rw [show replaceOne '/' [','] ['-'] = ['-'] from rfl]
    rw [h2, List.cons_append]

/-- A maximal-run decomposition of a folder name as `encode_folder_name`
scans it: a directly copied character (0x20-0x7D other than `&`), the
escaped `&`, or a maximal run of characters needing UTF-7 encoding. -/
inductive FBlock where
  | dir (c : Char) : FBlock
  | amp : FBlock
  | run (r : PyStr) : FBlock

/-- The block decomposition of a folder name. -/
def blocksOf : PyStr → List FBlock
  | [] => []
  | c :: rest =>
    if c = '&' then FBlock.amp :: blocksOf rest
    else if isFolderDirect c then FBlock.dir c :: blocksOf rest
    else
      match blocksOf rest with
      | FBlock.run r :: bs => FBlock.run (c :: r) :: bs
      | bs => FBlock.run [c] :: bs

/-- What `encode_folder_name`'s scanning loop emits for one block. -/
def encBlock : FBlock → PyStr
  | FBlock.dir c => [c]
  | FBlock.amp => ['&', '-']
  | FBlock.run r => encodeChars r

/-- The original characters a block stands for. -/
def origBlock : FBlock → PyStr
  | FBlock.dir c => [c]
  | FBlock.amp => ['&']
  | FBlock.run r => r

/-- `encodeGo` output when `pending` is the run accumulated so far and the
given blocks describe the rest of the input. -/
def encPend (pending : PyStr) : List FBlock → PyStr
  | [] => encodeChars pending
  | FBlock.run r :: rest => encodeChars (pending ++ r) ++ (rest.map encBlock).flatten
  | FBlock.dir c :: rest =>
    encodeChars pending ++ ((FBlock.dir c :: rest).map encBlock).flatten
  | FBlock.amp :: rest =>
    encodeChars pending ++ ((FBlock.amp :: rest).map encBlock).flatten

/-- Structural invariant of `blocksOf`: direct blocks hold a direct non-`&`
character, run blocks are non-empty and hold only non-direct characters. -/
def blockOK : FBlock → Prop
  | FBlock.dir c => isFolderDirect c = true ∧ c ≠ '&'
  | FBlock.amp => True
  | FBlock.run r => r ≠ [] ∧ ∀ c ∈ r, isFolderDirect c = false

/-- The restriction under which the encoding of one block survives the
`+`/`&` substitution and decodes back: each run is whitespace followed by
non-whitespace, and the base64 body of its non-whitespace part is `+`-free. -/
def suppBlock : FBlock → Bool
  | FBlock.run r =>
    ((r.dropWhile isUtf7Ws).all fun c => !(isUtf7Ws c)) &&
      decide ('+' ∉ b64encodeBits (bitsOfChars (r.dropWhile isUtf7Ws)))
  | _ => true

/-- Folder names whose every run block is supported. -/
def SupportedFolderName (s : PyStr) : Bool := (blocksOf s).all suppBlock

/-- Doubling of backslashes, the first escaping layer of
`encode_folder_name` (`folder_name.replace('\x5c', '\x5c\x5c')`). -/
def dblBS (s : PyStr) : PyStr := replaceOne '\\' ['\\', '\\'] s

/-- Escaping of double quotes, the second escaping layer of
`encode_folder_name` (`.replace('"', '\x5c"')`). -/
def escQuote (s : PyStr) : PyStr := replaceOne '"' ['\\', '"'] s

theorem encodeChars_nil : encodeChars [] = [] := rfl

theorem encodeChars_flush (p : PyStr) :
    (if p = [] then [] else encodeChars p) = encodeChars p := by
  by_cases h : p = []
  · rw [if_pos h, h, encodeChars_nil]
  · rw [if_neg h]

theorem encPend_nil : ∀ bs : List FBlock, encPend [] bs = (bs.map encBlock).flatten
  | [] => rfl
  | FBlock.dir c :: rest => by simp [encPend, encBlock, encodeChars_nil]
  | FBlock.amp :: rest => by simp [encPend, encBlock, encodeChars_nil]
  | FBlock.run r :: rest => by simp [encPend, encBlock]

theorem encodeGo_blocks (s : PyStr) :
    ∀ pending, encodeGo s pending = encPend pending (blocksOf s) := by
  induction s with
  | nil =>
      intro pending
      show (if pending = [] then [] else encodeChars pending) = encPend pending []
      rw [encodeChars_flush]
      rfl
  | cons c rest ih =>
      intro pending
      by_cases hamp : c = '&'
      · subst hamp
        rw [encodeGo, if_pos rfl, ih [], encodeChars_flush, encPend_nil]
        rw [show blocksOf ('&' :: rest) = FBlock.amp :: blocksOf rest by
          rw [blocksOf, if_pos rfl]]
        simp [encPend, encBlock]
      · by_cases hdir : isFolderDirect c
        · rw [encodeGo, if_neg hamp, if_pos hdir, ih [], encodeChars_flush, encPend_nil]
          rw [show blocksOf (c :: rest) = FBlock.dir c :: blocksOf rest by
            rw [blocksOf, if_neg hamp, if_pos hdir]]
          simp [encPend, encBlock]
        · rw [encodeGo, if_neg hamp, if_neg (by simp [hdir]), ih (pending ++ [c])]
          rw [show blocksOf (c :: rest) =
              (match blocksOf rest with
               | FBlock.run r :: bs => FBlock.run (c :: r) :: bs
               | bs => FBlock.run [c] :: bs) by
            rw [blocksOf, if_neg hamp, if_neg (by simp [hdir])]]
          cases hbr : blocksOf rest with
          | nil => simp [encPend]
          | cons b bs' =>
              cases b with
              | dir d => simp [encPend]
              | amp => simp [encPend]
              | run r => simp [encPend]

theorem blocksOf_orig (s : PyStr) :
    ((blocksOf s).map origBlock).flatten = s := by
  induction s with
  | nil => rfl
  | cons c rest ih =>
      by_cases hamp : c = '&'
      · subst hamp
        rw [show blocksOf ('&' :: rest) = FBlock.amp :: blocksOf rest by
          rw [blocksOf, if_pos rfl]]
        simp [origBlock, ih]
      · by_cases hdir : isFolderDirect c
        · rw [show blocksOf (c :: rest) = FBlock.dir c :: blocksOf rest by
            rw [blocksOf, if_neg hamp, if_pos hdir]]
          simp [origBlock, ih]
        · rw [show blocksOf (c :: rest) =
              (match blocksOf rest with
               | FBlock.run r :: bs => FBlock.run (c :: r) :: bs
               | bs => FBlock.run [c] :: bs) by
            rw [blocksOf, if_neg hamp, if_neg (by simp [hdir])]]
          cases hbr : blocksOf rest with
          | nil =>
              rw [hbr] at ih
              simp [origBlock] at ih ⊢
              exact ih
          | cons b bs' =>
              rw [hbr] at ih
              cases b with
              | dir d =>
                  simp [origBlock] at ih ⊢
                  exact ih
              | amp =>
                  simp [origBlock] at ih ⊢
                  exact ih
              | run r =>
                  simp [origBlock] at ih ⊢
                  exact ih

theorem blocksOf_ok (s : PyStr) : ∀ b ∈ blocksOf s, blockOK b := by
  induction s with
  | nil => intro b hb; simp [blocksOf] at hb
  | cons c rest ih =>
      intro b hb
      by_cases hamp : c = '&'
      · subst hamp
        rw [show blocksOf ('&' :: rest) = FBlock.amp :: blocksOf rest by
          rw [blocksOf, if_pos rfl]] at hb
        rcases List.mem_cons.mp hb with hb | hb
        · subst hb; trivial
        · exact ih b hb
      · by_cases hdir : isFolderDirect c
        · rw [show blocksOf (c :: rest) = FBlock.dir c :: blocksOf rest by
            rw [blocksOf, if_neg hamp, if_pos hdir]] at hb
          rcases List.mem_cons.mp hb with hb | hb
          · subst hb; exact ⟨hdir, hamp⟩
          · exact ih b hb
        · rw [show blocksOf (c :: rest) =
              (match blocksOf rest with
               | FBlock.run r :: bs => FBlock.run (c :: r) :: bs
               | bs => FBlock.run [c] :: bs) by
            rw [blocksOf, if_neg hamp, if_neg (by simp [hdir])]] at hb
          have hcnd : isFolderDirect c = false := by
            cases h : isFolderDirect c
            · rfl
            · exact absurd h hdir
          cases hbr : blocksOf rest with
          | nil =>
              rw [hbr] at hb
              simp at hb
              subst hb
              exact ⟨by simp, by intro d hd; simp at hd; subst hd; exact hcnd⟩
          | cons b0 bs' =>
              rw [hbr] at hb
              cases b0 with
              | dir d =>
                  rcases List.mem_cons.mp hb with hb | hb
                  · subst hb
                    exact ⟨by simp, by intro d hd; simp at hd; subst hd; exact hcnd⟩
                  · exact ih b (hbr ▸ hb)
              | amp =>
                  rcases List.mem_cons.mp hb with hb | hb
                  · subst hb
                    exact ⟨by simp, by intro d hd; simp at hd; subst hd; exact hcnd⟩
                  · exact ih b (hbr ▸ hb)
              | run r =>
                  rcases List.mem_cons.mp hb with hb | hb
                  · subst hb
                    have hrun : blockOK (FBlock.run r) := ih _ (hbr ▸ List.mem_cons_self _ _)
                    refine ⟨by simp, ?_⟩
                    intro d hd
                    rcases List.mem_cons.mp hd with hd | hd
                    · subst hd; exact hcnd
                    · exact hrun.2 d hd
                  · exact ih b (hbr ▸ List.mem_cons_of_mem _ hb)

theorem charBits_ne_nil (c : Char) : charBits c ≠ [] := by
  intro h
  have hl : (charBits c).length = 0 := by rw [h]; rfl
  rw [charBits] at hl
  by_cases hc : c.toNat < 0x10000 <;>
    simp [utf16units, hc, length_natToBits] at hl

theorem bitsOfChars_ne_nil (g : PyStr) (h : g ≠ []) : bitsOfChars g ≠ [] := by
  cases g with
  | nil => exact absurd rfl h
  | cons c g' =>
      rw [bitsOfChars_cons]
      intro hn
      rcases List.append_eq_nil.mp hn with ⟨h1, _⟩
      exact charBits_ne_nil c h1

theorem replacePair_cons_ne (a b : Char) (repl : PyStr) (c : Char) (t : PyStr)
    (hc : c ≠ a) : replacePair a b repl (c :: t) = c :: replacePair a b repl t := by
  cases t with
  | nil => rfl
  | cons d t' => rw [replacePair, if_neg (fun h => hc h.1)]

theorem pySplitChar_append_left (sep : Char) (x y : PyStr) (p : PyStr)
    (ps : List PyStr) (hx : sep ∉ x) (h : pySplitChar sep y = p :: ps) :
    pySplitChar sep (x ++ y) = (x ++ p) :: ps := by
  induction x with
  | nil => simpa using h
  | cons c x' ih =>
      rw [List.cons_append, pySplitChar, if_neg (fun hc => hx (by simp [hc]))]
      rw [ih (fun hc => hx (List.mem_cons_of_mem _ hc))]
      rfl

theorem sub64_not_mem (g : PyStr) (d : Char) (hd1 : d ∉ b64chars) (hd2 : d ≠ ',') :
    d ∉ replaceOne '/' [','] (b64encodeBits (bitsOfChars g)) := by
  intro hm
  rcases mem_replaceOne _ _ _ _ hm with hm | hm
  · exact hd1 (mem_b64encodeBits _ _ hm)
  · simp only [List.mem_singleton] at hm
    exact hd2 hm

theorem replaceOne_flatten (a : Char) (repl : PyStr) (L : List PyStr) :
    replaceOne a repl L.flatten = (L.map (replaceOne a repl)).flatten := by
  induction L with
  | nil => rfl
  | cons x L' ih => simp [replaceOne_append, ih]

theorem stripQuotes_wrap (x : PyStr) : stripQuotes ('"' :: x ++ ['"']) = x := by
  rw [stripQuotes, removePrefixB]
  have hp : (['"'] : PyStr).isPrefixOf ('"' :: x ++ ['"']) = true := by
    simp [List.isPrefixOf]
  rw [if_pos hp]
  show removeSuffixB (x ++ ['"']) ['"'] = x
  rw [removeSuffixB]
  have hs : (['"'] : PyStr).isSuffixOf (x ++ ['"']) = true := by
    simp [List.isSuffixOf, List.isPrefixOf]
  rw [if_pos hs]
  have hl : (x ++ (['"'] : PyStr)).length - (['"'] : PyStr).length = x.length := by
    simp
  rw [hl, List.take_left' rfl]

theorem unesc_esc (t : PyStr) :
    replacePair '\\' '"' ['"'] (escQuote (dblBS t)) = dblBS t ∧
      ∀ d rest, escQuote (dblBS t) = d :: rest → d ≠ '"' := by
  induction t with
  | nil =>
      refine ⟨rfl, ?_⟩
      intro d rest h
      simp [escQuote, dblBS, replaceOne] at h
  | cons c t' ih =>
      by_cases hbs : c = '\\'
      · subst hbs
        have hd : dblBS ('\\' :: t') = '\\' :: '\\' :: dblBS t' := by
          rw [dblBS, replaceOne, if_pos rfl]
          rfl
        have he : escQuote ('\\' :: '\\' :: dblBS t') =
            '\\' :: '\\' :: escQuote (dblBS t') := by
          rw [escQuote, replaceOne, if_neg (by decide), replaceOne, if_neg (by decide)]
          rfl
        refine ⟨?_, ?_⟩
        · rw [hd, he, replacePair, if_neg (by simp)]
          cases hY : escQuote (dblBS t') with
          | nil =>
              have h0 : dblBS t' = [] := by
                have h1 := ih.1
                rw [hY] at h1
                exact h1.symm
              rw [h0]
              rfl
          | cons d Y' =>
              have hdq : d ≠ '"' := ih.2 d Y' hY
              rw [replacePair, if_neg (fun hh => hdq hh.2)]
              have h1 := ih.1
              rw [hY] at h1
              rw [h1]
        · intro d rest h
          rw [hd, he] at h
          cases h
          decide
      · by_cases hq : c = '"'
        · subst hq
          have hd : dblBS ('"' :: t') = '"' :: dblBS t' := by
            rw [dblBS, replaceOne, if_neg (by decide)]
            rfl
          have he : escQuote ('"' :: dblBS t') = '\\' :: '"' :: escQuote (dblBS t') := by
            rw [escQuote, replaceOne, if_pos rfl]
            rfl
          refine ⟨?_, ?_⟩
          · rw [hd, he, replacePair, if_pos ⟨rfl, rfl⟩, ih.1]
            rfl
          · intro d rest h
            rw [hd, he] at h
            cases h
            decide
        · have hd : dblBS (c :: t') = c :: dblBS t' := by
            rw [dblBS, replaceOne, if_neg hbs]
            rfl
          have he : escQuote (c :: dblBS t') = c :: escQuote (dblBS t') := by
            rw [escQuote, replaceOne, if_neg hq]
            rfl
          refine ⟨?_, ?_⟩
          · rw [hd, he, replacePair_cons_ne _ _ _ _ _ hbs, ih.1]
          · intro d rest h
            rw [hd, he] at h
            cases h
            exact hq

theorem collapse_dblBS (t : PyStr) : replacePair '\\' '\\' ['\\'] (dblBS t) = t := by
  induction t with
  | nil => rfl
  | cons c t' ih =>
      by_cases hbs : c = '\\'
      · subst hbs
        rw [dblBS, replaceOne, if_pos rfl]
        show replacePair '\\' '\\' ['\\'] ('\\' :: '\\' :: dblBS t') = _
        rw [replacePair, if_pos ⟨rfl, rfl⟩, ih]
        rfl
      · have hd : dblBS (c :: t') = c :: dblBS t' := by
          rw [dblBS, replaceOne, if_neg hbs]
          rfl
        rw [hd, replacePair_cons_ne _ _ _ _ _ hbs, ih]

theorem dblBS_single (c : Char) :
    dblBS [c] = if c = '\\' then ['\\', '\\'] else [c] := by
  by_cases h : c = '\\' <;> simp [dblBS, replaceOne, h]

theorem dblBS_of_not_mem (s : PyStr) (h : '\\' ∉ s) : dblBS s = s :=
  replaceOne_of_not_mem _ _ _ h

/-- A block's emitted characters after the backslash doubling of
`encode_folder_name`. -/
def dblEnc (b : FBlock) : PyStr := dblBS (encBlock b)

/-- A block's original characters after the backslash doubling. -/
def dblOrig (b : FBlock) : PyStr := dblBS (origBlock b)

theorem dec_run (w g F p0 : PyStr) (ps : List PyStr) (ds : PyStr)
    (hw : ∀ c ∈ w, isUtf7Ws c = true)
    (hgw : ∀ c ∈ g, isUtf7Ws c = false)
    (hnd : ∀ c ∈ w ++ g, isFolderDirect c = false)
    (hpl : '+' ∉ b64encodeBits (bitsOfChars g))
    (h1 : pySplitChar '&' F = p0 :: ps)
    (h2 : decodeParts ps = Except.ok ds) :
    ∃ q0 qs es,
      pySplitChar '&' (dblBS (encodeChars (w ++ g)) ++ F) = q0 :: qs ∧
      decodeParts qs = Except.ok es ∧
      q0 ++ es = (w ++ g) ++ (p0 ++ ds) := by
  have hanw : '&' ∉ w := fun hm => absurd (hw '&' hm) (by decide)
  have hbsw : '\\' ∉ w := fun hm => absurd (hw '\\' hm) (by decide)
  have henc := encodeChars_run w g hw hgw hnd hpl
  by_cases hge : g = []
  · subst hge
    rw [if_pos rfl, List.append_nil] at henc
    refine ⟨w ++ p0, ps, ds, ?_, h2, ?_⟩
    · rw [List.append_nil, henc, dblBS_of_not_mem _ hbsw]
      exact pySplitChar_append_left '&' _ _ _ _ hanw h1
    · rw [List.append_nil, List.append_assoc]
  · rw [if_neg hge] at henc
    have hsub64 : ∀ d : Char, d ∉ b64chars → d ≠ ',' →
        d ∉ replaceOne '/' [','] (b64encodeBits (bitsOfChars g)) := fun d hd1 hd2 =>
      sub64_not_mem g d hd1 hd2
    have hnobs : '\\' ∉ w ++
        ('&' :: replaceOne '/' [','] (b64encodeBits (bitsOfChars g)) ++ ['-']) := by
      intro hm
      rcases List.mem_append.mp hm with hm | hm
      · exact hbsw hm
      · rcases List.mem_cons.mp hm with hm | hm
        · exact absurd hm (by decide)
        · rcases List.mem_append.mp hm with hm | hm
          · exact hsub64 '\\' (by decide) (by decide) hm
          · exact absurd hm (by decide)
    have hterm : dblBS (encodeChars (w ++ g)) ++ F =
        w ++ ('&' :: (replaceOne '/' [','] (b64encodeBits (bitsOfChars g)) ++
          ('-' :: F))) := by
      rw [henc, dblBS_of_not_mem _ hnobs]
      simp [List.append_assoc]
    have hsplit2 : pySplitChar '&' ('-' :: F) = ('-' :: p0) :: ps := by
      have := pySplitChar_append_left '&' ['-'] F p0 ps (by decide) h1
      simpa using this
    have hsplit3 : pySplitChar '&'
        (replaceOne '/' [','] (b64encodeBits (bitsOfChars g)) ++ ('-' :: F)) =
        (replaceOne '/' [','] (b64encodeBits (bitsOfChars g)) ++ ('-' :: p0)) :: ps :=
      pySplitChar_append_left '&' _ _ _ _ (hsub64 '&' (by decide) (by decide)) hsplit2
    have hsplit5 : pySplitChar '&' (dblBS (encodeChars (w ++ g)) ++ F) =
        w :: (replaceOne '/' [','] (b64encodeBits (bitsOfChars g)) ++
          ('-' :: p0)) :: ps := by
      rw [hterm]
      have h4 : pySplitChar '&'
          ('&' :: (replaceOne '/' [','] (b64encodeBits (bitsOfChars g)) ++
            ('-' :: F))) =
          [] :: (replaceOne '/' [','] (b64encodeBits (bitsOfChars g)) ++
            ('-' :: p0)) :: ps := by
        rw [pySplitChar, if_pos rfl, hsplit3]
      have h5 := pySplitChar_append_left '&' w _ _ _ hanw h4
      rw [h5, List.append_nil]
    have hsubne : replaceOne '/' [','] (b64encodeBits (bitsOfChars g)) ≠ [] :=
      replaceOne_ne_nil _ _ _
        (b64encodeBits_ne_nil _ (bitsOfChars_ne_nil g hge)) (by simp)
    have hcomma : ',' ∉ b64encodeBits (bitsOfChars g) := fun hm =>
      absurd (mem_b64encodeBits _ _ hm) (by decide)
    have hdp : decodePart
        (replaceOne '/' [','] (b64encodeBits (bitsOfChars g)) ++ ('-' :: p0)) =
        Except.ok (g ++ p0) := by
      have hsf : splitFirst ['-']
          (replaceOne '/' [','] (b64encodeBits (bitsOfChars g)) ++ ('-' :: p0)) =
          some (replaceOne '/' [','] (b64encodeBits (bitsOfChars g)), p0) :=
        splitFirst_single_char '-' _ _ (hsub64 '-' (by decide) (by decide))
      rw [decodePart, hsf]
      dsimp only
      rw [replaceOne_inv _ hcomma, decodePlus_of_encode]
      dsimp only
      rw [if_neg hsubne]
      rfl
    refine ⟨w, (replaceOne '/' [','] (b64encodeBits (bitsOfChars g)) ++
      ('-' :: p0)) :: ps, (g ++ p0) ++ ds, hsplit5, ?_, ?_⟩
    · simp only [decodeParts, hdp, h2, exceptBind_ok]
    · simp [List.append_assoc]

theorem dec_parts (bs : List FBlock)
    (hok : ∀ b ∈ bs, blockOK b)
    (hsup : ∀ b ∈ bs, suppBlock b = true) :
    ∃ p0 ps ds,
      pySplitChar '&' ((bs.map dblEnc).flatten) = p0 :: ps ∧
      decodeParts ps = Except.ok ds ∧
      p0 ++ ds = (bs.map dblOrig).flatten := by
  induction bs with
  | nil => exact ⟨[], [], [], rfl, rfl, rfl⟩
  | cons b bs' ih =>
      obtain ⟨p0, ps, ds, h1, h2, h3⟩ :=
        ih (fun x hx => hok x (List.mem_cons_of_mem _ hx))
          (fun x hx => hsup x (List.mem_cons_of_mem _ hx))
      have hflat : ((b :: bs').map dblEnc).flatten =
          dblEnc b ++ (bs'.map dblEnc).flatten := by simp
      have hflat2 : ((b :: bs').map dblOrig).flatten =
          dblOrig b ++ (bs'.map dblOrig).flatten := by simp
      cases b with
      | dir c =>
          have hbok : isFolderDirect c = true ∧ c ≠ '&' :=
            hok _ (List.mem_cons_self _ _)
          have hde : dblEnc (FBlock.dir c) =
              if c = '\\' then ['\\', '\\'] else [c] := by
            rw [dblEnc, show encBlock (FBlock.dir c) = [c] from rfl, dblBS_single]
          have hx : '&' ∉ dblEnc (FBlock.dir c) := by
            rw [hde]
            by_cases hc : c = '\\'
            · rw [if_pos hc]; decide
            · rw [if_neg hc]
              intro hm
              simp only [List.mem_singleton] at hm
              exact hbok.2 hm.symm
          refine ⟨dblEnc (FBlock.dir c) ++ p0, ps, ds, ?_, h2, ?_⟩
          · rw [hflat]
            exact pySplitChar_append_left '&' _ _ _ _ hx h1
          · rw [hflat2, List.append_assoc, h3]
            rfl
      | amp =>
          have hde : dblEnc FBlock.amp = ['&', '-'] := by decide
          refine ⟨[], ('-' :: p0) :: ps, ('&' :: p0) ++ ds, ?_, ?_, ?_⟩
          · rw [hflat, hde]
            show pySplitChar '&' ('&' :: ('-' :: (bs'.map dblEnc).flatten)) = _
            rw [pySplitChar, if_pos rfl, pySplitChar, if_neg (by decide), h1]
          · have hdp : decodePart ('-' :: p0) = Except.ok ('&' :: p0) := by
              have hsf : splitFirst ['-'] ('-' :: p0) = some ([], p0) := by
                have := splitFirst_single_char '-' [] p0 (by simp)
                simpa using this
              rw [decodePart, hsf]
              rfl
            simp only [decodeParts, hdp, h2, exceptBind_ok]
          · have hoa : dblOrig FBlock.amp = ['&'] := by decide
            rw [hflat2, hoa]
            show ('&' :: p0) ++ ds = _
            rw [List.cons_append, h3]
            rfl
      | run r =>
          have hbok : r ≠ [] ∧ ∀ c ∈ r, isFolderDirect c = false :=
            hok _ (List.mem_cons_self _ _)
          have hsupb : suppBlock (FBlock.run r) = true := hsup _ (List.mem_cons_self _ _)
          have hsupb' : ((r.dropWhile isUtf7Ws).all fun c => !(isUtf7Ws c)) = true ∧
              decide ('+' ∉ b64encodeBits (bitsOfChars (r.dropWhile isUtf7Ws))) =
                true := by
            simpa [suppBlock, Bool.and_eq_true] using hsupb
          have hsh : ∀ c ∈ r.dropWhile isUtf7Ws, isUtf7Ws c = false := by
            intro c hc
            have := List.all_eq_true.mp hsupb'.1 c hc
            simpa using this
          have hpl : '+' ∉ b64encodeBits (bitsOfChars (r.dropWhile isUtf7Ws)) :=
            of_decide_eq_true hsupb'.2
          have hsplit : r.takeWhile isUtf7Ws ++ r.dropWhile isUtf7Ws = r :=
            List.takeWhile_append_dropWhile isUtf7Ws r
          have hw : ∀ c ∈ r.takeWhile isUtf7Ws, isUtf7Ws c = true := fun c hc =>
            List.mem_takeWhile_imp hc
          have hnd : ∀ c ∈ r.takeWhile isUtf7Ws ++ r.dropWhile isUtf7Ws,
              isFolderDirect c = false := by
            rw [hsplit]
            exact hbok.2
          obtain ⟨q0, qs, es, hq1, hq2, hq3⟩ :=
            dec_run (r.takeWhile isUtf7Ws) (r.dropWhile isUtf7Ws)
              ((bs'.map dblEnc).flatten) p0 ps ds hw hsh hnd hpl h1 h2
          rw [hsplit] at hq1 hq3
          refine ⟨q0, qs, es, ?_, hq2, ?_⟩
          · rw [hflat]
            exact hq1
          · rw [hflat2, hq3]
            have hor : dblOrig (FBlock.run r) = r := by
              rw [dblOrig, show origBlock (FBlock.run r) = r from rfl]
              refine dblBS_of_not_mem r ?_
              intro hm
              exact absurd (hbok.2 '\\' hm) (by simp [isFolderDirect])
            rw [hor, h3]

theorem unescQuote_eq (s : PyStr) : unescQuote s = replacePair '\\' '"' ['"'] s := rfl

/-- C1, corrected: `decode_folder_name` is not a direct inverse of
`encode_folder_name` (see `codec_roundtrip_cex`: the encoder's surrounding
double quotes are stripped elsewhere in the pipeline), and even through the
real pipeline the round trip only holds for supported names. Through the
pipeline — quote stripping as in `extract_list_result`, then the
`folder.replace('\x5c"', '"')` unescaping of `get_all_folders`, then
`decode_folder_name` — every supported folder name round-trips:
`SupportedFolderName` demands that each maximal run of
to-be-encoded characters consist of UTF-7-whitespace followed by
non-whitespace and that the modified base64 of its non-whitespace part be
`+`-free (otherwise the encoder's `.replace('+', '&')` corrupts the payload
or a run-internal whitespace leaves an unterminated shift sequence, and
decoding raises instead). -/
theorem codec_roundtrip (s : PyStr) (h : SupportedFolderName s = true) :
    decode_folder_name (unescQuote (stripQuotes (encode_folder_name s))) =
      Except.ok s := by
  have hsup : ∀ b ∈ blocksOf s, suppBlock b = true := List.all_eq_true.mp h
  have hok := blocksOf_ok s
  obtain ⟨p0, ps, ds, h1, h2, h3⟩ := dec_parts (blocksOf s) hok hsup
  have hwrap : stripQuotes (encode_folder_name s) =
      escQuote (dblBS (encodeGo s [])) := by
    rw [show encode_folder_name s =
        '"' :: escQuote (dblBS (encodeGo s [])) ++ ['"'] from rfl, stripQuotes_wrap]
  rw [hwrap, unescQuote_eq, (unesc_esc (encodeGo s [])).1]
  have hE : encodeGo s [] = ((blocksOf s).map encBlock).flatten := by
    rw [encodeGo_blocks s [], encPend_nil]
  rw [hE]
  have hdbl : dblBS (((blocksOf s).map encBlock).flatten) =
      ((blocksOf s).map dblEnc).flatten := by
    rw [dblBS, replaceOne_flatten, List.map_map]
    rfl
  rw [hdbl, decode_folder_name, h1]
  dsimp only
  simp only [h2, exceptBind_ok]
  rw [h3]
  have hodbl : ((blocksOf s).map dblOrig).flatten =
      dblBS (((blocksOf s).map origBlock).flatten) := by
    rw [dblBS, replaceOne_flatten, List.map_map]
    rfl
  rw [hodbl, blocksOf_orig, collapse_dblBS]

theorem codec_roundtrip_witness :
    SupportedFolderName ['a', '&', '\\', '"', '\n', 'é'] = true ∧
      decode_folder_name (unescQuote (stripQuotes
          (encode_folder_name ['a', '&', '\\', '"', '\n', 'é']))) =
        Except.ok ['a', '&', '\\', '"', '\n', 'é'] :=
  ⟨by decide, codec_roundtrip _ (by decide)⟩

end Ymd
